import Mathlib

/-!
Verification of the libsame SAME-header generator core.

A shallow embedding of `src/libsame.c` (together with the constants of
`include/libsame/libsame.h`), and proofs about it.

Modelling conventions:

* C `unsigned int` values are `ℕ` with arithmetic reduced modulo `2 ^ 32`
  where the source can overflow (the per-phase sample budgets and the
  post-decrement test in the generation loop).  `size_t` values stay plain
  `ℕ` (they are bounded far below `2 ^ 64` here).
* IEEE-754 binary32 (`float`) values are dyadic rationals and are modelled
  exactly by the structure `F32`, a pair `m, e` denoting `m * 2 ^ e`.
  `f32OfRat a b` rounds the exact rational `a / b` to the nearest binary32
  value (ties to even, the IEEE default); each C float operation rounds its
  exact result the same way.  Every value reached in this development is
  well inside the binary32 normal range, so overflow and subnormals need no
  treatment.
* The sine engine (`libsame_sin`) is build-time dispatched in the source,
  and in its default (`LIBC`) and `APP` configurations delegates to a
  function that is not part of this repository (the C library's `sinf`, or
  a caller-supplied callback).  It is therefore modelled as an oracle
  parameter `osc : F32 → F32 → ℤ` taking the time period `t` and the
  frequency and returning an `int16_t` sample — exactly the interface of
  `libsame_sin`.
* Byte buffers are functions `ℕ → ℕ` updated pointwise; header fields are
  lists of ASCII byte values.
-/

namespace Libsame

/-! ## Exact binary32 model -/

/-- Fuel-driven binary logarithm: `natLog2Aux fuel n` is `⌊log₂ n⌋` whenever
`fuel ≥ n ≥ 1` (structural recursion so that it evaluates in the kernel). -/
def natLog2Aux : ℕ → ℕ → ℕ
  | 0, _ => 0
  | fuel + 1, n => if n < 2 then 0 else natLog2Aux fuel (n / 2) + 1

/-- `⌊log₂ n⌋` for `n ≥ 1` (and `0` at `0`). -/
def natLog2 (n : ℕ) : ℕ := natLog2Aux n n

/-- Round `a / b` (with `b > 0`) to the nearest natural number, ties to
even: the IEEE-754 default rounding, on which the binary32 model rests. -/
def rneNat (a b : ℕ) : ℕ :=
  let q := a / b
  let r := a % b
  if 2 * r < b then q
  else if b < 2 * r then q + 1
  else if q % 2 = 0 then q else q + 1

/-- An IEEE-754 binary32 value, represented exactly: the dyadic rational
`m * 2 ^ e`.  Values produced by the constructors below are canonical
(`2 ^ 23 ≤ |m| < 2 ^ 24`, or `m = 0`). -/
structure F32 where
  m : ℤ
  e : ℤ
deriving DecidableEq

/-- Round the positive rational `a / b` (`a, b ≥ 1`) to the nearest
binary32 value, ties to even. -/
def f32OfPos (a b : ℕ) : F32 :=
  let e0 : ℤ := (natLog2 a : ℤ) - (natLog2 b : ℤ)
  let ge : Bool :=
    if 0 ≤ e0 then decide (b * 2 ^ e0.toNat ≤ a) else decide (b ≤ a * 2 ^ (-e0).toNat)
  let e : ℤ := if ge then e0 else e0 - 1
  let p : ℕ := (23 - e).toNat
  let q : ℕ := (e - 23).toNat
  let m := rneNat (a * 2 ^ p) (b * 2 ^ q)
  if m = 2 ^ 24 then ⟨2 ^ 23, e - 22⟩ else ⟨(m : ℤ), e - 23⟩

/-- Round the rational `a / b` to the nearest binary32 value (ties to
even).  A zero denominator yields `0`; it is never reached on the paths
the source exercises with a positive sample rate. -/
def f32OfRat (a : ℤ) (b : ℕ) : F32 :=
  if a = 0 ∨ b = 0 then ⟨0, 0⟩
  else if 0 < a then f32OfPos a.toNat b
  else
    let r := f32OfPos (-a).toNat b
    ⟨-r.m, r.e⟩

/-- The binary32 value of a natural number (e.g. C's
`(float)sample_rate`). -/
def f32OfNat (n : ℕ) : F32 := f32OfRat (n : ℤ) 1

/-- Binary32 multiplication: the exact product, rounded. -/
def f32mul (x y : F32) : F32 :=
  let r := f32OfRat (x.m * y.m) 1
  ⟨r.m, r.e + x.e + y.e⟩

/-- Binary32 division: the exact quotient, rounded. -/
def f32div (x y : F32) : F32 :=
  if y.m = 0 then ⟨0, 0⟩
  else if 0 ≤ y.m then
    let r := f32OfRat x.m y.m.toNat
    ⟨r.m, r.e + x.e - y.e⟩
  else
    let r := f32OfRat (-x.m) (-y.m).toNat
    ⟨r.m, r.e + x.e - y.e⟩

/-- C `roundf`: round to nearest, halfway cases away from zero. -/
def roundF32 (x : F32) : ℤ :=
  if 0 ≤ x.e then x.m * 2 ^ x.e.toNat
  else
    let k := (-x.e).toNat
    if 0 ≤ x.m then (x.m + 2 ^ (k - 1)) / 2 ^ k
    else -((-x.m + 2 ^ (k - 1)) / 2 ^ k)

/-! ## Protocol constants (libsame.h / libsame.c) -/

/-- `LIBSAME_PREAMBLE`: the 0xAB synchronization byte. -/
def PREAMBLE : ℕ := 0xAB

/-- `libsame_afsk_bit_rate_get()`: the binary32 value of `520.83F`. -/
def afskBitRate : F32 := f32OfRat 52083 100

/-- `libsame_afsk_bit_duration_get()`: `1.0F / 520.83F` in binary32. -/
def afskBitDuration : F32 := f32div (f32OfNat 1) afskBitRate

/-- `libsame_afsk_mark_freq_get()`: the binary32 value of `2083.3F`. -/
def markFreq : F32 := f32OfRat 20833 10

/-- `libsame_afsk_space_freq_get()`: the binary32 value of `1562.5F`. -/
def spaceFreq : F32 := f32OfRat 15625 10

/-- `libsame_attn_sig_freq_first_get()`: 853.0 (exact in binary32). -/
def attnFreqFirst : F32 := f32OfNat 853

/-- `libsame_attn_sig_freq_second_get()`: 960.0 (exact in binary32). -/
def attnFreqSecond : F32 := f32OfNat 960

/-- The modulus of C `unsigned int` arithmetic on the supported targets. -/
def U32 : ℕ := 2 ^ 32

/-- The samples-per-bit computation of `libsame_ctx_init`:
`(unsigned int)roundf(libsame_afsk_bit_duration_get() * (float)sample_rate)`. -/
def afskSamplesPerBit (sample_rate : ℕ) : ℕ :=
  (roundF32 (f32mul afskBitDuration (f32OfNat sample_rate))).toNat

/-- Modelled from the spec: `samples_per_bit = round(sample_rate /
AFSK_BIT_RATE)` with exact real division by 520.83 and rounding half away
from zero, i.e. `⌊sample_rate·100/52083 + 1/2⌋ = (200·sample_rate + 52083)
/ 104166`.  This is the specification-side definition, kept separate so it
can be compared with the code's binary32 computation `afskSamplesPerBit`. -/
def specSamplesPerBit (sample_rate : ℕ) : ℕ :=
  (200 * sample_rate + 52083) / 104166

end Libsame

namespace Libsame

/-! ## Header descriptor (struct libsame_header) -/

/-- `LIBSAME_LOCATION_CODE_END_MARKER`: the ASCII bytes of `"SPOOKY"`. -/
def spookyBytes : List ℕ := [83, 80, 79, 79, 75, 89]

/-- `struct libsame_header`.  String fields are lists of ASCII byte
values; `location_codes` is the slot array (the C array holds 31 slots,
terminated early by the `"SPOOKY"` sentinel). -/
structure LibsameHeader where
  location_codes : List (List ℕ)
  valid_time_period : List ℕ
  originator_code : List ℕ
  event_code : List ℕ
  callsign : List ℕ
  originator_time : List ℕ
  attn_sig_duration : ℕ

/-- The location codes `libsame_ctx_init` actually serializes: the slots
before the first `"SPOOKY"` sentinel, at most 31 of them — the loop
`for i < LIBSAME_LOCATION_CODES_NUM_MAX { if memcmp(...) == 0 break; }`. -/
def effectiveLocs (h : LibsameHeader) : List (List ℕ) :=
  (h.location_codes.take 31).takeWhile (fun c => !decide (c = spookyBytes))

/-- A well-formed descriptor: every string field has exactly its protocol
length, at least one location code is present, and the attention-signal
duration lies in the mandated 8..25 second range. -/
def LibsameHeader.Valid (h : LibsameHeader) : Prop :=
  h.originator_code.length = 3 ∧ h.event_code.length = 3 ∧
  h.valid_time_period.length = 4 ∧ h.originator_time.length = 7 ∧
  h.callsign.length = 8 ∧ 1 ≤ (effectiveLocs h).length ∧
  (∀ c ∈ effectiveLocs h, c.length = 6) ∧
  8 ≤ h.attn_sig_duration ∧ h.attn_sig_duration ≤ 25

instance (h : LibsameHeader) : Decidable h.Valid := by
  unfold LibsameHeader.Valid; infer_instance

/-! ## Generation context (struct libsame_gen_ctx) -/

/-- The AFSK sub-state of the context (`ctx->afsk`): current byte index,
bit index within the byte, and sample index within the bit.  (The phase
accumulator exists only in the LUT build configuration and is absent
here, as in the default build.) -/
structure AfskState where
  data_pos : ℕ
  bit_pos : ℕ
  sample_num : ℕ
deriving DecidableEq

/-- `struct libsame_gen_ctx`.  `sample_data` is the 4096-sample output
chunk buffer; `header_data` the serialized header bytes (both modelled as
total functions, indices beyond the C array bounds being irrelevant). -/
structure GenCtx where
  sample_data : ℕ → ℤ
  header_data : ℕ → ℕ
  seq_samples_remaining : ℕ → ℕ
  afsk : AfskState
  header_size : ℕ
  seq_state : ℕ
  attn_sig_sample_num : ℕ
  sample_rate : ℕ
  afsk_samples_per_bit : ℕ

/-- A context whose storage is all zeroes — the state of a C context
created as `struct libsame_gen_ctx ctx = {};` before initialization. -/
def zeroCtx : GenCtx where
  sample_data := fun _ => 0
  header_data := fun _ => 0
  seq_samples_remaining := fun _ => 0
  afsk := ⟨0, 0, 0⟩
  header_size := 0
  seq_state := 0
  attn_sig_sample_num := 0
  sample_rate := 0
  afsk_samples_per_bit := 0

/-! ## Header serialization (libsame_field_add / libsame_ctx_init) -/

/-- Write a list of bytes into a buffer at consecutive positions starting
at `pos` (the `memcpy` in `libsame_field_add` and `libsame_ctx_init`). -/
def writeBytes : (ℕ → ℕ) → ℕ → List ℕ → (ℕ → ℕ)
  | d, _, [] => d
  | d, pos, b :: bs => writeBytes (Function.update d pos b) (pos + 1) bs

/-- `libsame_field_add`: append the field bytes at `data_size`, then a
dash (ASCII 45), returning the buffer and the new occupied size. -/
def libsame_field_add (data : ℕ → ℕ) (data_size : ℕ) (field : List ℕ) :
    (ℕ → ℕ) × ℕ :=
  (Function.update (writeBytes data data_size field) (data_size + field.length) 45,
   data_size + field.length + 1)

/-- `LIBSAME_INITIAL_HEADER`: 16 preamble bytes, `"ZCZC"`, and the
placeholder `"-ORG-EEE-PSSCCC"`. -/
def initialHeader : List ℕ :=
  List.replicate 16 PREAMBLE ++
    [90, 67, 90, 67, 45, 79, 82, 71, 45, 69, 69, 69, 45, 80, 83, 83, 67, 67, 67]

/-- The tail of the serialization in `libsame_ctx_init`, starting from the
buffer/size pair left by the location-code loop: overwrite the final
location dash with `'+'` (ASCII 43), then append the valid time period,
the originator time and the callsign fields. -/
def serializeTail (p : (ℕ → ℕ) × ℕ) (h : LibsameHeader) : (ℕ → ℕ) × ℕ :=
  let d4 := Function.update p.1 (p.2 - 1) 43
  let p5 := libsame_field_add d4 p.2 h.valid_time_period
  let p6 := libsame_field_add p5.1 p5.2 h.originator_time
  libsame_field_add p6.1 p6.2 h.callsign

/-- The first half of the serialization in `libsame_ctx_init`: copy the
35-byte `LIBSAME_INITIAL_HEADER` prelude, append the originator and event
code fields starting after the first dash (offset `16 + 4 + 1`), then
append the effective location codes. -/
def serializeLocs (d : ℕ → ℕ) (h : LibsameHeader) : (ℕ → ℕ) × ℕ :=
  (effectiveLocs h).foldl (fun p c => libsame_field_add p.1 p.2 c)
    (libsame_field_add
      (libsame_field_add (writeBytes d 0 initialHeader) (16 + 4 + 1)
        h.originator_code).1
      (libsame_field_add (writeBytes d 0 initialHeader) (16 + 4 + 1)
        h.originator_code).2
      h.event_code)

/-- The full header serialization performed by `libsame_ctx_init`. -/
def serializeHeader (d : ℕ → ℕ) (h : LibsameHeader) : (ℕ → ℕ) × ℕ :=
  serializeTail (serializeLocs d h) h

/-- `libsame_ctx_init`: serialize the header, record its size and the
sample rate, derive the samples-per-bit, and fill the fourteen per-phase
sample budgets (computed in `unsigned int` arithmetic, hence reduced
modulo `2 ^ 32`).  Phase indices follow `enum libsame_seq_state`: 0/2/4
AFSK header bursts, 8/10/12 AFSK EOM bursts, 6 the attention signal, and
1/3/5/7/9/11/13 the silence periods. -/
def libsame_ctx_init (ctx : GenCtx) (h : LibsameHeader) (sample_rate : ℕ) :
    GenCtx :=
  let p7 := serializeHeader ctx.header_data h
  let spb := afskSamplesPerBit sample_rate
  { ctx with
    header_data := p7.1
    header_size := p7.2
    sample_rate := sample_rate
    afsk_samples_per_bit := spb
    seq_samples_remaining := fun p =>
      if p = 0 ∨ p = 2 ∨ p = 4 then (8 * spb * p7.2) % U32
      else if p = 8 ∨ p = 10 ∨ p = 12 then (8 * spb * 20) % U32
      else if p = 6 then (h.attn_sig_duration * sample_rate) % U32
      else if p < 14 then (1 * sample_rate) % U32
      else ctx.seq_samples_remaining p }

/-! ## Sample generators -/

/-- The frequency selection of `libsame_afsk_gen`:
`(data[data_pos] >> bit_pos) & 1 ? mark : space`. -/
def afskFreq (data : ℕ → ℕ) (s : AfskState) : F32 :=
  if (data s.data_pos >>> s.bit_pos) % 2 = 1 then markFreq else spaceFreq

/-- The AFSK sub-state advance performed at the end of each
`libsame_afsk_gen` call: increment the sample counter, rolling over into
the bit counter at `samples_per_bit`, into the byte counter at 8 bits, and
clearing the whole sub-state (`memset`) when the byte counter reaches
`data_size`. -/
def afskNext (spb : ℕ) (data_size : ℕ) (s : AfskState) : AfskState :=
  if spb ≤ s.sample_num + 1 then
    if 8 ≤ s.bit_pos + 1 then
      if data_size ≤ s.data_pos + 1 then ⟨0, 0, 0⟩ else ⟨s.data_pos + 1, 0, 0⟩
    else ⟨s.data_pos, s.bit_pos + 1, 0⟩
  else ⟨s.data_pos, s.bit_pos, s.sample_num + 1⟩

/-- The time period used by `libsame_afsk_gen`:
`(float)ctx->afsk.sample_num / (float)ctx->sample_rate`. -/
def afskT (ctx : GenCtx) : F32 :=
  f32div (f32OfNat ctx.afsk.sample_num) (f32OfNat ctx.sample_rate)

/-- `libsame_afsk_gen`: store one sine sample at the mark or space
frequency for the current bit, then advance the AFSK sub-state. -/
def libsame_afsk_gen (osc : F32 → F32 → ℤ) (data : ℕ → ℕ) (data_size : ℕ)
    (ctx : GenCtx) (sample_pos : ℕ) : GenCtx :=
  { ctx with
    sample_data :=
      Function.update ctx.sample_data sample_pos (osc (afskT ctx) (afskFreq data ctx.afsk))
    afsk := afskNext ctx.afsk_samples_per_bit data_size ctx.afsk }

/-- `libsame_silence_gen`: store one zero sample. -/
def libsame_silence_gen (ctx : GenCtx) (sample_pos : ℕ) : GenCtx :=
  { ctx with sample_data := Function.update ctx.sample_data sample_pos 0 }

/-- The C cast `(int16_t)x` (two's complement wrap-around). -/
def i16cast (x : ℤ) : ℤ := (x + 2 ^ 15) % 2 ^ 16 - 2 ^ 15

/-- The time period used by `libsame_attn_sig_gen`:
`(float)ctx->attn_sig_sample_num / (float)ctx->sample_rate`. -/
def attnT (ctx : GenCtx) : F32 :=
  f32div (f32OfNat ctx.attn_sig_sample_num) (f32OfNat ctx.sample_rate)

/-- `libsame_attn_sig_gen`: one 853 Hz sample and one 960 Hz sample, each
divided by `(int32_t)sizeof(int16_t)` (truncating division by 2), summed,
cast to `int16_t`, stored; then the attention sample counter advances. -/
def libsame_attn_sig_gen (osc : F32 → F32 → ℤ) (ctx : GenCtx)
    (sample_pos : ℕ) : GenCtx :=
  { ctx with
    sample_data :=
      Function.update ctx.sample_data sample_pos
        (i16cast ((osc (attnT ctx) attnFreqFirst).tdiv 2 +
          (osc (attnT ctx) attnFreqSecond).tdiv 2))
    attn_sig_sample_num := ctx.attn_sig_sample_num + 1 }

/-! ## The chunk driver (libsame_samples_gen) -/

/-- `LIBSAME_EOM_HEADER`: 16 preamble bytes followed by `"NNNN"`. -/
def eomBytes : List ℕ := List.replicate 16 PREAMBLE ++ [78, 78, 78, 78]

/-- The EOM buffer as a byte lookup. -/
def eomData : ℕ → ℕ := fun i => eomBytes.getD i 0

/-- The `switch (ctx->seq_state)` dispatch of `libsame_samples_gen`:
header AFSK phases 0/2/4, the attention phase 6, EOM AFSK phases 8/10/12,
and silence for the remaining (odd) phases. -/
def genDispatch (osc : F32 → F32 → ℤ) (ctx : GenCtx) (sample_pos : ℕ) :
    GenCtx :=
  if ctx.seq_state = 0 ∨ ctx.seq_state = 2 ∨ ctx.seq_state = 4 then
    libsame_afsk_gen osc ctx.header_data ctx.header_size ctx sample_pos
  else if ctx.seq_state = 6 then
    libsame_attn_sig_gen osc ctx sample_pos
  else if ctx.seq_state = 8 ∨ ctx.seq_state = 10 ∨ ctx.seq_state = 12 then
    libsame_afsk_gen osc eomData 20 ctx sample_pos
  else
    libsame_silence_gen ctx sample_pos

/-- The bookkeeping after each generated sample:
`ctx->seq_samples_remaining[ctx->seq_state]--` in `unsigned int`
arithmetic, then advance `seq_state` when the count reaches zero. -/
def seqAdvance (ctx : GenCtx) : GenCtx :=
  let r := (ctx.seq_samples_remaining ctx.seq_state + (U32 - 1)) % U32
  let c := { ctx with
    seq_samples_remaining :=
      Function.update ctx.seq_samples_remaining ctx.seq_state r }
  if r = 0 then { c with seq_state := c.seq_state + 1 } else c

/-- The body of `libsame_samples_gen`: up to `fuel` iterations, the
iteration at buffer position `pos` dispatching one sample and advancing
the sequence bookkeeping, returning immediately once the terminal state
(14, `LIBSAME_SEQ_STATE_NUM`) is reached. -/
def genLoop (osc : F32 → F32 → ℤ) : ℕ → ℕ → GenCtx → GenCtx
  | 0, _, c => c
  | fuel + 1, pos, c =>
    let c1 := seqAdvance (genDispatch osc c pos)
    if 14 ≤ c1.seq_state then c1 else genLoop osc fuel (pos + 1) c1

/-- `libsame_samples_gen`: fill the 4096-sample chunk
(`LIBSAME_SAMPLES_NUM_MAX`), stopping early at the terminal state. -/
def libsame_samples_gen (osc : F32 → F32 → ℤ) (ctx : GenCtx) : GenCtx :=
  genLoop osc 4096 0 ctx

/-- One per-sample step of the generator at buffer position `sample_pos`:
the loop body of `libsame_samples_gen`.  At the terminal state the
generator is never stepped (the source asserts `seq_state <
LIBSAME_SEQ_STATE_NUM`), so the step is modelled as the identity there. -/
def genStep (osc : F32 → F32 → ℤ) (sample_pos : ℕ) (ctx : GenCtx) : GenCtx :=
  if 14 ≤ ctx.seq_state then ctx else seqAdvance (genDispatch osc ctx sample_pos)

/-- `runGen osc pos c n`: the context after `n` per-sample steps, the
`k`-th step writing buffer position `pos k`. -/
def runGen (osc : F32 → F32 → ℤ) (pos : ℕ → ℕ) (c : GenCtx) : ℕ → GenCtx
  | 0 => c
  | n + 1 => genStep osc (pos n) (runGen osc pos c n)

end Libsame

namespace Libsame

/-! ## Concrete descriptors used by the end-to-end scenarios -/

/-- The Scenario 1 descriptor: originator `"WXR"`, event `"TOR"`, locations
`["048484", "048024"]` (sentinel in slot 2), valid time `"1000"`,
originator time `"1172221"`, callsign `"WAEB/AM "`, attention duration 8. -/
def scenario1 : LibsameHeader where
  location_codes := [[48, 52, 56, 52, 56, 52], [48, 52, 56, 48, 50, 52], spookyBytes]
  valid_time_period := [49, 48, 48, 48]
  originator_code := [87, 88, 82]
  event_code := [84, 79, 82]
  callsign := [87, 65, 69, 66, 47, 65, 77, 32]
  originator_time := [49, 49, 55, 50, 50, 50, 49]
  attn_sig_duration := 8

/-! ## Header size arithmetic (C1) -/

/-- `libsame_field_add` grows the occupied size by the field length plus
one (for the dash). -/
theorem field_add_size (d : ℕ → ℕ) (s : ℕ) (f : List ℕ) :
    (libsame_field_add d s f).2 = s + f.length + 1 := rfl

/-- Serializing a list of six-byte location codes grows the occupied size
by seven bytes per code. -/
theorem locs_fold_size (ls : List (List ℕ)) (p : (ℕ → ℕ) × ℕ)
    (h6 : ∀ c ∈ ls, c.length = 6) :
    (ls.foldl (fun p c => libsame_field_add p.1 p.2 c) p).2 = p.2 + 7 * ls.length := by
  induction ls generalizing p with
  | nil => simp
  | cons c ls ih =>
    have hc : c.length = 6 := h6 c (List.mem_cons_self c ls)
    simp only [List.foldl_cons]
    rw [ih _ (fun x hx => h6 x (List.mem_cons_of_mem _ hx))]
    simp [field_add_size, hc]
    omega

/-- The size growth of `serializeTail`: the `'+'` overwrite is in place,
and the three trailing fields each add their length plus a dash. -/
theorem serializeTail_size (p : (ℕ → ℕ) × ℕ) (h : LibsameHeader) :
    (serializeTail p h).2 =
      p.2 + h.valid_time_period.length + h.originator_time.length +
        h.callsign.length + 3 := by
  simp only [serializeTail, field_add_size]
  omega

/-- The occupied size after the location codes: 21 prelude bytes plus the
two leading field blocks plus seven bytes per code. -/
theorem serializeLocs_size (d : ℕ → ℕ) (h : LibsameHeader)
    (h6 : ∀ c ∈ effectiveLocs h, c.length = 6) :
    (serializeLocs d h).2 =
      23 + h.originator_code.length + h.event_code.length +
        7 * (effectiveLocs h).length := by
  simp only [serializeLocs]
  rw [locs_fold_size _ _ h6]
  simp only [field_add_size]
  omega

/-- The size of the fully serialized header in terms of the field
lengths. -/
theorem serializeHeader_size (d : ℕ → ℕ) (h : LibsameHeader)
    (h6 : ∀ c ∈ effectiveLocs h, c.length = 6) :
    (serializeHeader d h).2 =
      26 + h.originator_code.length + h.event_code.length +
        h.valid_time_period.length + h.originator_time.length +
        h.callsign.length + 7 * (effectiveLocs h).length := by
  simp only [serializeHeader, serializeTail_size]
  rw [serializeLocs_size _ _ h6]
  omega

/-- C1 (amended).  For every valid descriptor with `k` serialized location
codes, `libsame_ctx_init` records a header length of `51 + 7·k` bytes:
21 prelude bytes (16 preamble + "ZCZC" + dash), 4 for the originator code
block, 4 for the event code block, 7 per location code, 5 for the valid
time period block, 8 for the originator time block and 9 for the callsign
block.  (In particular 65 bytes for the Scenario 1 descriptor and 268 for
31 location codes, not 64 and 267 as the claim states.) -/
theorem ctx_init_header_size (c : GenCtx) (h : LibsameHeader) (sr : ℕ)
    (hv : h.Valid) :
    (libsame_ctx_init c h sr).header_size = 51 + 7 * (effectiveLocs h).length := by
  obtain ⟨h1, h2, h3, h4, h5, -, h7, -⟩ := hv
  have hs : (libsame_ctx_init c h sr).header_size =
      (serializeHeader c.header_data h).2 := rfl
  rw [hs, serializeHeader_size _ _ h7, h1, h2, h3, h4, h5]

/-- Witness for C1's amended theorem at the Scenario 1 descriptor. -/
theorem ctx_init_header_size_witness :
    scenario1.Valid ∧
      (libsame_ctx_init zeroCtx scenario1 44100).header_size =
        51 + 7 * (effectiveLocs scenario1).length :=
  ⟨by decide, ctx_init_header_size zeroCtx scenario1 44100 (by decide)⟩

/-- C1 counterexample: for the Scenario 1 descriptor (two location codes)
the recorded header length is 65, not `50 + 7·2 = 64` as the claim
states. -/
theorem c1_counterexample :
    (libsame_ctx_init zeroCtx scenario1 44100).header_size = 65 ∧
      (libsame_ctx_init zeroCtx scenario1 44100).header_size ≠ 50 + 7 * 2 := by
  constructor
  · decide
  · decide

/-- C2.  For the Scenario 1 descriptor, after `libsame_ctx_init` the 44
serialized header bytes starting at offset 21 are the ASCII string
`WXR-TOR-048484-048024+1000-1172221-WAEB/AM -`. -/
theorem scenario1_header_bytes :
    (List.range 44).map
        (fun i => (libsame_ctx_init zeroCtx scenario1 44100).header_data (21 + i)) =
      [87, 88, 82, 45, 84, 79, 82, 45, 48, 52, 56, 52, 56, 52, 45, 48, 52, 56,
       48, 50, 52, 43, 49, 48, 48, 48, 45, 49, 49, 55, 50, 50, 50, 49, 45, 87,
       65, 69, 66, 47, 65, 77, 32, 45] := by
  decide

end Libsame

namespace Libsame

/-! ## Samples-per-bit (C4) -/

/-- C4 (amended).  `libsame_ctx_init` sets `afsk_samples_per_bit` to the
binary32 evaluation of `roundf((1.0F/520.83F) * (float)sample_rate)`; this
can differ by one from `round(sample_rate / 520.83)` computed over the
reals, but at the tested rate 44100 both equal 85. -/
theorem ctx_init_samples_per_bit (c : GenCtx) (h : LibsameHeader) (sr : ℕ) :
    (libsame_ctx_init c h sr).afsk_samples_per_bit = afskSamplesPerBit sr ∧
      afskSamplesPerBit 44100 = 85 ∧ specSamplesPerBit 44100 = 85 :=
  ⟨rfl, by decide, by decide⟩

/-- C4 counterexample: at sample rate 222134 the code computes 426
samples per bit (the binary32 product is 426.49997…), while
`round(222134 / 520.83) = 427` (the exact quotient is 426.5000096…). -/
theorem c4_counterexample :
    (libsame_ctx_init zeroCtx scenario1 222134).afsk_samples_per_bit = 426 ∧
      specSamplesPerBit 222134 = 427 ∧
      (libsame_ctx_init zeroCtx scenario1 222134).afsk_samples_per_bit ≠
        specSamplesPerBit 222134 :=
  ⟨by decide, by decide, by decide⟩

/-! ## Per-phase sample budgets (C6) -/

/-- C6 (amended).  The per-phase sample budgets are the claimed products
computed in `unsigned int` arithmetic, i.e. reduced modulo `2 ^ 32`; they
equal the plain products whenever those fit in 32 bits (hypotheses `hh`,
`he`, `hs`, `ha`), as they do at every realistic sample rate including the
tested 44100 Hz. -/
theorem ctx_init_budgets (c : GenCtx) (h : LibsameHeader) (sr : ℕ)
    (hh : 8 * afskSamplesPerBit sr * (libsame_ctx_init c h sr).header_size < U32)
    (he : 8 * afskSamplesPerBit sr * 20 < U32)
    (hs : sr < U32)
    (ha : h.attn_sig_duration * sr < U32) :
    (∀ p, p = 0 ∨ p = 2 ∨ p = 4 →
      (libsame_ctx_init c h sr).seq_samples_remaining p =
        8 * afskSamplesPerBit sr * (libsame_ctx_init c h sr).header_size) ∧
    (∀ p, p = 8 ∨ p = 10 ∨ p = 12 →
      (libsame_ctx_init c h sr).seq_samples_remaining p =
        8 * afskSamplesPerBit sr * 20) ∧
    (∀ p, p = 1 ∨ p = 3 ∨ p = 5 ∨ p = 7 ∨ p = 9 ∨ p = 11 ∨ p = 13 →
      (libsame_ctx_init c h sr).seq_samples_remaining p = 1 * sr) ∧
    (libsame_ctx_init c h sr).seq_samples_remaining 6 =
      h.attn_sig_duration * sr := by
  refine ⟨?_, ?_, ?_, ?_⟩
  · rintro p (rfl | rfl | rfl) <;>
      exact Nat.mod_eq_of_lt hh
  · rintro p (rfl | rfl | rfl) <;>
      exact Nat.mod_eq_of_lt he
  · rintro p (rfl | rfl | rfl | rfl | rfl | rfl | rfl) <;>
      · show (1 * sr) % U32 = 1 * sr
        rw [one_mul]
        exact Nat.mod_eq_of_lt hs
  · exact Nat.mod_eq_of_lt ha

end Libsame

namespace Libsame

/-- Witness for C6's amended theorem at the Scenario 1 descriptor and
44100 Hz (budgets 44200, 13600, 44100 and 352800). -/
theorem ctx_init_budgets_witness :
    (8 * afskSamplesPerBit 44100 *
        (libsame_ctx_init zeroCtx scenario1 44100).header_size < U32) ∧
      (8 * afskSamplesPerBit 44100 * 20 < U32) ∧ (44100 < U32) ∧
      (scenario1.attn_sig_duration * 44100 < U32) ∧
      ((∀ p, p = 0 ∨ p = 2 ∨ p = 4 →
          (libsame_ctx_init zeroCtx scenario1 44100).seq_samples_remaining p =
            8 * afskSamplesPerBit 44100 *
              (libsame_ctx_init zeroCtx scenario1 44100).header_size) ∧
        (∀ p, p = 8 ∨ p = 10 ∨ p = 12 →
          (libsame_ctx_init zeroCtx scenario1 44100).seq_samples_remaining p =
            8 * afskSamplesPerBit 44100 * 20) ∧
        (∀ p, p = 1 ∨ p = 3 ∨ p = 5 ∨ p = 7 ∨ p = 9 ∨ p = 11 ∨ p = 13 →
          (libsame_ctx_init zeroCtx scenario1 44100).seq_samples_remaining p =
            1 * 44100) ∧
        (libsame_ctx_init zeroCtx scenario1 44100).seq_samples_remaining 6 =
          scenario1.attn_sig_duration * 44100) :=
  ⟨by decide, by decide, by decide, by decide,
    ctx_init_budgets zeroCtx scenario1 44100 (by decide) (by decide) (by decide)
      (by decide)⟩

/-- C6 counterexample: at the (extreme but positive) sample rate `2 ^ 31`
with an 8-second attention signal, the stored attention budget is
`(8 * 2^31) mod 2^32 = 0`, not the claimed product `8 * 2^31`. -/
theorem c6_counterexample :
    (libsame_ctx_init zeroCtx scenario1 (2 ^ 31)).seq_samples_remaining 6 = 0 ∧
      scenario1.attn_sig_duration * 2 ^ 31 = 17179869184 ∧
      (libsame_ctx_init zeroCtx scenario1 (2 ^ 31)).seq_samples_remaining 6 ≠
        scenario1.attn_sig_duration * 2 ^ 31 :=
  ⟨by decide, by decide, by decide⟩

end Libsame

namespace Libsame

/-! ## Buffer lookup lemmas for the serializer -/

/-- `writeBytes` leaves positions below the write window unchanged. -/
theorem writeBytes_lookup_lt (bs : List ℕ) (d : ℕ → ℕ) (p i : ℕ) (hi : i < p) :
    writeBytes d p bs i = d i := by
  induction bs generalizing d p with
  | nil => rfl
  | cons b bs ih =>
    show writeBytes (Function.update d p b) (p + 1) bs i = d i
    rw [ih _ _ (by omega)]
    exact Function.update_noteq (by omega) _ _

/-- `writeBytes` leaves positions at or beyond the write window
unchanged. -/
theorem writeBytes_lookup_ge (bs : List ℕ) (d : ℕ → ℕ) (p i : ℕ)
    (hi : p + bs.length ≤ i) : writeBytes d p bs i = d i := by
  induction bs generalizing d p with
  | nil => rfl
  | cons b bs ih =>
    show writeBytes (Function.update d p b) (p + 1) bs i = d i
    rw [ih _ _ (by simp at hi; omega)]
    exact Function.update_noteq (by simp at hi; omega) _ _

/-- `libsame_field_add` leaves positions below the occupied size
unchanged. -/
theorem field_add_lookup_lt (d : ℕ → ℕ) (s : ℕ) (f : List ℕ) (i : ℕ)
    (hi : i < s) : (libsame_field_add d s f).1 i = d i := by
  show Function.update (writeBytes d s f) (s + f.length) 45 i = d i
  rw [Function.update_noteq (by omega)]
  exact writeBytes_lookup_lt f d s i hi

/-- `libsame_field_add` leaves positions at or beyond the new occupied
size unchanged. -/
theorem field_add_lookup_ge (d : ℕ → ℕ) (s : ℕ) (f : List ℕ) (i : ℕ)
    (hi : s + f.length + 1 ≤ i) : (libsame_field_add d s f).1 i = d i := by
  show Function.update (writeBytes d s f) (s + f.length) 45 i = d i
  rw [Function.update_noteq (by omega)]
  exact writeBytes_lookup_ge f d s i (by omega)

/-- The dash `libsame_field_add` appends sits at position
`data_size + field_len`. -/
theorem field_add_dash (d : ℕ → ℕ) (s : ℕ) (f : List ℕ) :
    (libsame_field_add d s f).1 (s + f.length) = 45 := by
  show Function.update (writeBytes d s f) (s + f.length) 45 (s + f.length) = 45
  exact Function.update_same _ _ _

/-- The location-code fold never shrinks the occupied size. -/
theorem locs_fold_size_mono (ls : List (List ℕ)) (p : (ℕ → ℕ) × ℕ) :
    p.2 ≤ (ls.foldl (fun p c => libsame_field_add p.1 p.2 c) p).2 := by
  induction ls generalizing p with
  | nil => simp
  | cons c ls ih =>
    simp only [List.foldl_cons]
    have h := ih (libsame_field_add p.1 p.2 c)
    rw [field_add_size] at h
    omega

/-- The location-code fold leaves positions below the occupied size
unchanged. -/
theorem locs_fold_lookup_lt (ls : List (List ℕ)) (p : (ℕ → ℕ) × ℕ) (i : ℕ)
    (hi : i < p.2) :
    (ls.foldl (fun p c => libsame_field_add p.1 p.2 c) p).1 i = p.1 i := by
  induction ls generalizing p with
  | nil => rfl
  | cons c ls ih =>
    simp only [List.foldl_cons]
    rw [ih _ (by rw [field_add_size]; omega)]
    exact field_add_lookup_lt _ _ _ _ hi

/-- The location-code fold leaves positions at or beyond its final
occupied size unchanged. -/
theorem locs_fold_lookup_ge (ls : List (List ℕ)) (p : (ℕ → ℕ) × ℕ) (i : ℕ)
    (hi : (ls.foldl (fun p c => libsame_field_add p.1 p.2 c) p).2 ≤ i) :
    (ls.foldl (fun p c => libsame_field_add p.1 p.2 c) p).1 i = p.1 i := by
  induction ls generalizing p with
  | nil => rfl
  | cons c ls ih =>
    simp only [List.foldl_cons] at hi ⊢
    rw [ih _ hi]
    refine field_add_lookup_ge _ _ _ _ ?_
    have h := locs_fold_size_mono ls (libsame_field_add p.1 p.2 c)
    rw [field_add_size] at h
    omega

end Libsame

namespace Libsame

/-- `writeBytes` at a position inside the write window returns the
corresponding list entry. -/
theorem writeBytes_lookup_in (bs : List ℕ) (d : ℕ → ℕ) (p j : ℕ)
    (hj : j < bs.length) : writeBytes d p bs (p + j) = bs.getD j 0 := by
  induction bs generalizing d p j with
  | nil => simp at hj
  | cons b bs ih =>
    show writeBytes (Function.update d p b) (p + 1) bs (p + j) = _
    match j with
    | 0 =>
      rw [writeBytes_lookup_lt _ _ _ _ (by omega)]
      simp [Function.update_same]
    | j + 1 =>
      have : p + (j + 1) = (p + 1) + j := by omega
      rw [this, ih _ _ _ (by simp at hj; omega)]
      rfl

/-- Even without any length assumption, the size after the location codes
is at least 23 (the prelude and the two dashes of the leading blocks). -/
theorem serializeLocs_size_lb (d : ℕ → ℕ) (h : LibsameHeader) :
    23 ≤ (serializeLocs d h).2 := by
  simp only [serializeLocs]
  refine le_trans ?_ (locs_fold_size_mono _ _)
  simp only [field_add_size]
  omega

/-- `serializeTail` leaves positions strictly below the `'+'` position
unchanged. -/
theorem serializeTail_lookup_lt (p : (ℕ → ℕ) × ℕ) (h : LibsameHeader) (i : ℕ)
    (hi : i < p.2 - 1) : (serializeTail p h).1 i = p.1 i := by
  simp only [serializeTail, field_add_size]
  rw [field_add_lookup_lt _ _ _ _ (by omega)]
  rw [field_add_lookup_lt _ _ _ _ (by omega)]
  rw [field_add_lookup_lt _ _ _ _ (by omega)]
  exact Function.update_noteq (by omega) _ _

/-- `serializeTail` leaves positions at or beyond its final size
unchanged. -/
theorem serializeTail_lookup_ge (p : (ℕ → ℕ) × ℕ) (h : LibsameHeader) (i : ℕ)
    (hp : 1 ≤ p.2) (hi : (serializeTail p h).2 ≤ i) :
    (serializeTail p h).1 i = p.1 i := by
  rw [serializeTail_size] at hi
  simp only [serializeTail, field_add_size]
  rw [field_add_lookup_ge _ _ _ _ (by omega)]
  rw [field_add_lookup_ge _ _ _ _ (by omega)]
  rw [field_add_lookup_ge _ _ _ _ (by omega)]
  exact Function.update_noteq (by omega) _ _

/-- The `'+'` sign written by `serializeTail` survives the three trailing
field writes: it sits at position `p.2 - 1`. -/
theorem serializeTail_plus (p : (ℕ → ℕ) × ℕ) (h : LibsameHeader)
    (hp : 1 ≤ p.2) : (serializeTail p h).1 (p.2 - 1) = 43 := by
  simp only [serializeTail, field_add_size]
  rw [field_add_lookup_lt _ _ _ _ (by omega)]
  rw [field_add_lookup_lt _ _ _ _ (by omega)]
  rw [field_add_lookup_lt _ _ _ _ (by omega)]
  exact Function.update_same _ _ _

/-- The last serialized byte — the dash following the callsign. -/
theorem serializeTail_last (p : (ℕ → ℕ) × ℕ) (h : LibsameHeader) :
    (serializeTail p h).1 ((serializeTail p h).2 - 1) = 45 := by
  have e : (serializeTail p h).2 - 1 =
      p.2 + h.valid_time_period.length + 1 + h.originator_time.length + 1 +
        h.callsign.length := by
    rw [serializeTail_size]; omega
  rw [e]
  exact field_add_dash _ _ _

end Libsame

namespace Libsame

/-- `serializeLocs` leaves positions at or beyond its final size and the
35-byte prelude window unchanged. -/
theorem serializeLocs_lookup_ge (d : ℕ → ℕ) (h : LibsameHeader) (i : ℕ)
    (h35 : 35 ≤ i) (hi : (serializeLocs d h).2 ≤ i) :
    (serializeLocs d h).1 i = d i := by
  simp only [serializeLocs] at hi ⊢
  have hst := le_trans (locs_fold_size_mono _ _) hi
  rw [locs_fold_lookup_ge _ _ _ hi]
  rw [field_add_size] at hst
  rw [field_add_lookup_ge _ _ _ _ (by omega)]
  rw [field_add_size] at hst
  rw [field_add_lookup_ge _ _ _ _ (by omega)]
  refine writeBytes_lookup_ge _ _ _ _ ?_
  have hlen : initialHeader.length = 35 := rfl
  omega

/-- `serializeLocs` leaves positions below offset 21 (the prelude through
the first dash) at the value written by the prelude copy. -/
theorem serializeLocs_lookup_lt (d : ℕ → ℕ) (h : LibsameHeader) (i : ℕ)
    (hi : i < 21) :
    (serializeLocs d h).1 i = writeBytes d 0 initialHeader i := by
  simp only [serializeLocs]
  rw [locs_fold_lookup_lt _ _ _ (by simp only [field_add_size]; omega)]
  rw [field_add_lookup_lt _ _ _ _ (by simp only [field_add_size]; omega)]
  exact field_add_lookup_lt _ _ _ _ (by omega)

/-- `serializeHeader` leaves positions at or beyond both its final size
and the 35-byte prelude window unchanged. -/
theorem serializeHeader_lookup_ge (d : ℕ → ℕ) (h : LibsameHeader) (i : ℕ)
    (h35 : 35 ≤ i) (hi : (serializeHeader d h).2 ≤ i) :
    (serializeHeader d h).1 i = d i := by
  simp only [serializeHeader, serializeTail_size] at hi ⊢
  rw [serializeTail_lookup_ge _ _ _
    (le_trans (by omega) (serializeLocs_size_lb d h))
    (by rw [serializeTail_size]; omega)]
  exact serializeLocs_lookup_ge _ _ _ h35 (by omega)

/-- The `'+'` sign of the serialized header sits at the position just
before the valid-time-period field, i.e. at `(serializeLocs d h).2 - 1`. -/
theorem serializeHeader_plus (d : ℕ → ℕ) (h : LibsameHeader) :
    (serializeHeader d h).1 ((serializeLocs d h).2 - 1) = 43 := by
  simp only [serializeHeader]
  exact serializeTail_plus _ _ (le_trans (by omega) (serializeLocs_size_lb d h))

/-- The last serialized header byte is the dash following the callsign. -/
theorem serializeHeader_last (d : ℕ → ℕ) (h : LibsameHeader) :
    (serializeHeader d h).1 ((serializeHeader d h).2 - 1) = 45 := by
  simp only [serializeHeader]
  exact serializeTail_last _ _

/-- The first 21 serialized bytes: the prelude copy survives all the field
writes below offset 21. -/
theorem serializeHeader_lookup_lt (d : ℕ → ℕ) (h : LibsameHeader) (i : ℕ)
    (hi : i < 21) :
    (serializeHeader d h).1 i = writeBytes d 0 initialHeader i := by
  simp only [serializeHeader]
  rw [serializeTail_lookup_lt _ _ _ (by
    have := serializeLocs_size_lb d h
    omega)]
  exact serializeLocs_lookup_lt _ _ _ hi

end Libsame

namespace Libsame

/-! ## Frame effect of libsame_ctx_init (C10) -/

/-- C10.  `libsame_ctx_init` writes only the serialized header bytes, the
header length, the sample rate, the samples-per-bit and the fourteen
per-phase budgets: the sequence state, the AFSK sub-state, the
attention-signal sample counter, the output sample buffer, the remaining
vector beyond the fourteen phases, and every header byte at or beyond the
recorded header size are all left unchanged.  In particular a context
whose sequence state is nonzero keeps it after re-initialization — only a
zeroed context begins at phase 0. -/
theorem ctx_init_frame (c : GenCtx) (h : LibsameHeader) (sr : ℕ)
    (hv : h.Valid) :
    (libsame_ctx_init c h sr).seq_state = c.seq_state ∧
    (libsame_ctx_init c h sr).afsk = c.afsk ∧
    (libsame_ctx_init c h sr).attn_sig_sample_num = c.attn_sig_sample_num ∧
    (∀ i, (libsame_ctx_init c h sr).sample_data i = c.sample_data i) ∧
    (∀ q, 14 ≤ q →
      (libsame_ctx_init c h sr).seq_samples_remaining q =
        c.seq_samples_remaining q) ∧
    (∀ i, (libsame_ctx_init c h sr).header_size ≤ i →
      (libsame_ctx_init c h sr).header_data i = c.header_data i) := by
  refine ⟨rfl, rfl, rfl, fun i => rfl, ?_, ?_⟩
  · intro q hq
    show (if q = 0 ∨ q = 2 ∨ q = 4 then _
      else if q = 8 ∨ q = 10 ∨ q = 12 then _
      else if q = 6 then _
      else if q < 14 then _
      else c.seq_samples_remaining q) = c.seq_samples_remaining q
    rw [if_neg (by omega), if_neg (by omega), if_neg (by omega),
      if_neg (by omega)]
  · intro i hi
    obtain ⟨h1, h2, h3, h4, h5, h6, h7, -⟩ := hv
    have hsz : (libsame_ctx_init c h sr).header_size =
        (serializeHeader c.header_data h).2 := rfl
    have h35 : 35 ≤ i := by
      rw [hsz, serializeHeader_size _ _ h7, h1, h2, h3, h4, h5] at hi
      omega
    exact serializeHeader_lookup_ge _ _ _ h35 (hsz ▸ hi)

/-- Witness for C10 at a context with nonzero sequence and generator
state: re-initialization leaves all of it in place. -/
theorem ctx_init_frame_witness :
    scenario1.Valid ∧
      ((libsame_ctx_init
          { zeroCtx with
            seq_state := 5, afsk := ⟨1, 2, 3⟩, attn_sig_sample_num := 9 }
          scenario1 44100).seq_state =
        ({ zeroCtx with
            seq_state := 5, afsk := ⟨1, 2, 3⟩,
            attn_sig_sample_num := 9 } : GenCtx).seq_state ∧
      (libsame_ctx_init
          { zeroCtx with
            seq_state := 5, afsk := ⟨1, 2, 3⟩, attn_sig_sample_num := 9 }
          scenario1 44100).afsk =
        ({ zeroCtx with
            seq_state := 5, afsk := ⟨1, 2, 3⟩,
            attn_sig_sample_num := 9 } : GenCtx).afsk ∧
      (libsame_ctx_init
          { zeroCtx with
            seq_state := 5, afsk := ⟨1, 2, 3⟩, attn_sig_sample_num := 9 }
          scenario1 44100).attn_sig_sample_num =
        ({ zeroCtx with
            seq_state := 5, afsk := ⟨1, 2, 3⟩,
            attn_sig_sample_num := 9 } : GenCtx).attn_sig_sample_num ∧
      (∀ i, (libsame_ctx_init
          { zeroCtx with
            seq_state := 5, afsk := ⟨1, 2, 3⟩, attn_sig_sample_num := 9 }
          scenario1 44100).sample_data i =
        ({ zeroCtx with
            seq_state := 5, afsk := ⟨1, 2, 3⟩,
            attn_sig_sample_num := 9 } : GenCtx).sample_data i) ∧
      (∀ q, 14 ≤ q →
        (libsame_ctx_init
            { zeroCtx with
              seq_state := 5, afsk := ⟨1, 2, 3⟩, attn_sig_sample_num := 9 }
            scenario1 44100).seq_samples_remaining q =
          ({ zeroCtx with
              seq_state := 5, afsk := ⟨1, 2, 3⟩,
              attn_sig_sample_num := 9 } : GenCtx).seq_samples_remaining q) ∧
      (∀ i, (libsame_ctx_init
            { zeroCtx with
              seq_state := 5, afsk := ⟨1, 2, 3⟩, attn_sig_sample_num := 9 }
            scenario1 44100).header_size ≤ i →
        (libsame_ctx_init
            { zeroCtx with
              seq_state := 5, afsk := ⟨1, 2, 3⟩, attn_sig_sample_num := 9 }
            scenario1 44100).header_data i =
          ({ zeroCtx with
              seq_state := 5, afsk := ⟨1, 2, 3⟩,
              attn_sig_sample_num := 9 } : GenCtx).header_data i)) :=
  ⟨by decide,
    ctx_init_frame
      { zeroCtx with seq_state := 5, afsk := ⟨1, 2, 3⟩, attn_sig_sample_num := 9 }
      scenario1 44100 (by decide)⟩

end Libsame

namespace Libsame

/-! ## Header well-formedness invariants (C3) -/

/-- The header invariants of the claim, for a header with `k` location
codes: 16 preamble bytes, `"ZCZC"`, the `'+'` immediately before the
valid-time-period field (which starts at offset `29 + 7k`), and a final
dash after the callsign. -/
def HeaderWellFormed (k : ℕ) (c : GenCtx) : Prop :=
  (∀ i, i < 16 → c.header_data i = PREAMBLE) ∧
  c.header_data 16 = 90 ∧ c.header_data 17 = 67 ∧
  c.header_data 18 = 90 ∧ c.header_data 19 = 67 ∧
  c.header_data (28 + 7 * k) = 43 ∧
  c.header_data (c.header_size - 1) = 45

/-- Well-formedness only mentions the header buffer and size, so it
transfers along any step that preserves both. -/
theorem headerWF_congr (k : ℕ) (a b : GenCtx) (hd : b.header_data = a.header_data)
    (hs : b.header_size = a.header_size) (hw : HeaderWellFormed k a) :
    HeaderWellFormed k b := by
  unfold HeaderWellFormed at hw ⊢
  rw [hd, hs]
  exact hw

/-- After `libsame_ctx_init` on a valid descriptor the serialized header
is well formed. -/
theorem ctx_init_headerWF (c : GenCtx) (h : LibsameHeader) (sr : ℕ)
    (hv : h.Valid) :
    HeaderWellFormed (effectiveLocs h).length (libsame_ctx_init c h sr) := by
  obtain ⟨h1, h2, h3, h4, h5, h6, h7, -⟩ := hv
  have hd : (libsame_ctx_init c h sr).header_data =
      (serializeHeader c.header_data h).1 := rfl
  have hs : (libsame_ctx_init c h sr).header_size =
      (serializeHeader c.header_data h).2 := rfl
  have hin : ∀ j, j < 35 →
      (serializeHeader c.header_data h).1 j =
        initialHeader.getD j 0 ∨ 21 ≤ j := by
    intro j hj
    by_cases hj21 : j < 21
    · left
      rw [serializeHeader_lookup_lt _ _ _ hj21]
      have hw := writeBytes_lookup_in initialHeader c.header_data 0 j (by
        have hlen : initialHeader.length = 35 := rfl
        omega)
      simpa using hw
    · right; omega
  refine ⟨?_, ?_, ?_, ?_, ?_, ?_, ?_⟩
  · intro i hi
    rcases hin i (by omega) with hv | hv
    · rw [hd, hv]
      clear hv
      revert i
      decide
    · omega
  · rcases hin 16 (by omega) with hv | hv
    · rw [hd, hv]; rfl
    · omega
  · rcases hin 17 (by omega) with hv | hv
    · rw [hd, hv]; rfl
    · omega
  · rcases hin 18 (by omega) with hv | hv
    · rw [hd, hv]; rfl
    · omega
  · rcases hin 19 (by omega) with hv | hv
    · rw [hd, hv]; rfl
    · omega
  · have hplus := serializeHeader_plus c.header_data h
    have hsz := serializeLocs_size c.header_data h h7
    rw [h1, h2] at hsz
    have he : (serializeLocs c.header_data h).2 - 1 =
        28 + 7 * (effectiveLocs h).length := by omega
    rw [hd, ← he]
    exact hplus
  · rw [hd, hs]
    exact serializeHeader_last c.header_data h

/-! Frame lemmas: the generators leave the serialized header alone. -/

/-- The per-sample dispatch writes the sample buffer and its own sub-state
only; the header bytes and size are untouched. -/
theorem dispatch_header (osc : F32 → F32 → ℤ) (c : GenCtx) (p : ℕ) :
    (genDispatch osc c p).header_data = c.header_data ∧
    (genDispatch osc c p).header_size = c.header_size := by
  unfold genDispatch
  split_ifs <;> exact ⟨rfl, rfl⟩

/-- The one-step characterization of `seqAdvance`: decrement the current
phase's remaining count in `unsigned int` arithmetic, then advance the
phase exactly when the decremented count is zero. -/
theorem seqAdvance_eq (c : GenCtx) :
    seqAdvance c =
      if (c.seq_samples_remaining c.seq_state + (U32 - 1)) % U32 = 0 then
        { c with
          seq_samples_remaining := Function.update c.seq_samples_remaining
            c.seq_state
            ((c.seq_samples_remaining c.seq_state + (U32 - 1)) % U32),
          seq_state := c.seq_state + 1 }
      else
        { c with
          seq_samples_remaining := Function.update c.seq_samples_remaining
            c.seq_state
            ((c.seq_samples_remaining c.seq_state + (U32 - 1)) % U32) } :=
  rfl

/-- The post-sample bookkeeping leaves the header untouched. -/
theorem seqAdvance_header (c : GenCtx) :
    (seqAdvance c).header_data = c.header_data ∧
    (seqAdvance c).header_size = c.header_size := by
  rw [seqAdvance_eq]
  by_cases hr : (c.seq_samples_remaining c.seq_state + (U32 - 1)) % U32 = 0
  · rw [if_pos hr]; exact ⟨rfl, rfl⟩
  · rw [if_neg hr]; exact ⟨rfl, rfl⟩

/-- The chunk loop leaves the header untouched. -/
theorem genLoop_header (osc : F32 → F32 → ℤ) :
    ∀ fuel pos c, (genLoop osc fuel pos c).header_data = c.header_data ∧
      (genLoop osc fuel pos c).header_size = c.header_size := by
  intro fuel
  induction fuel with
  | zero => exact fun pos c => ⟨rfl, rfl⟩
  | succ f ih =>
    intro pos c
    simp only [genLoop]
    split
    · exact ⟨((seqAdvance_header _).1).trans (dispatch_header osc c pos).1,
        ((seqAdvance_header _).2).trans (dispatch_header osc c pos).2⟩
    · exact ⟨((ih _ _).1).trans (((seqAdvance_header _).1).trans
          (dispatch_header osc c pos).1),
        ((ih _ _).2).trans (((seqAdvance_header _).2).trans
          (dispatch_header osc c pos).2)⟩

/-- `libsame_samples_gen` leaves the header untouched. -/
theorem samples_gen_header (osc : F32 → F32 → ℤ) (c : GenCtx) :
    (libsame_samples_gen osc c).header_data = c.header_data ∧
    (libsame_samples_gen osc c).header_size = c.header_size :=
  genLoop_header osc 4096 0 c

/-- C3.  For every valid descriptor, after `libsame_ctx_init` and at every
subsequent `libsame_samples_gen` boundary, the serialized header satisfies
the framing invariants: bytes 0..15 are 0xAB, bytes 16..19 are "ZCZC", the
byte immediately before the valid-time-period field is `'+'`, and the last
byte (following the callsign) is `'-'`. -/
theorem header_invariants (osc : F32 → F32 → ℤ) (c : GenCtx)
    (h : LibsameHeader) (sr n : ℕ) (hv : h.Valid) :
    HeaderWellFormed (effectiveLocs h).length
      ((libsame_samples_gen osc)^[n] (libsame_ctx_init c h sr)) := by
  induction n with
  | zero => exact ctx_init_headerWF c h sr hv
  | succ m ih =>
    rw [Function.iterate_succ_apply']
    exact headerWF_congr _ _ _ (samples_gen_header osc _).1
      (samples_gen_header osc _).2 ih

/-- A trivially computable oracle used to instantiate witnesses. -/
def zeroOsc : F32 → F32 → ℤ := fun _ _ => 0

/-- Witness for C3 at the Scenario 1 descriptor. -/
theorem header_invariants_witness :
    scenario1.Valid ∧
      HeaderWellFormed (effectiveLocs scenario1).length
        ((libsame_samples_gen zeroOsc)^[0]
          (libsame_ctx_init zeroCtx scenario1 44100)) :=
  ⟨by decide, header_invariants zeroOsc zeroCtx scenario1 44100 0 (by decide)⟩

end Libsame

namespace Libsame

/-! ## The attention-signal sample (C9) -/

/-- C's truncating division by two, expressed through Euclidean division:
it rounds up (adds one) exactly on odd negative operands. -/
theorem tdiv_two_eq (a : ℤ) :
    a.tdiv 2 = a / 2 + (if a < 0 ∧ a % 2 = 1 then 1 else 0) := by
  rcases a with n | n
  · rw [show (Int.ofNat n).tdiv 2 = Int.ofNat (n / 2) from rfl]
    simp only [Int.ofNat_eq_natCast]
    rw [if_neg (by omega)]
    omega
  · rw [show (Int.negSucc n).tdiv 2 = -Int.ofNat ((n + 1) / 2) from rfl]
    simp only [Int.negSucc_eq, Int.ofNat_eq_natCast]
    by_cases hc : (-((n : ℤ) + 1)) % 2 = 1
    · rw [if_pos ⟨by omega, hc⟩]
      omega
    · rw [if_neg (fun h => hc h.2)]
      omega

/-- `(int16_t)x` is the identity on the `int16_t` range. -/
theorem i16cast_eq_self (x : ℤ) (h1 : -32768 ≤ x) (h2 : x ≤ 32767) :
    i16cast x = x := by
  unfold i16cast
  have e15 : (2 : ℤ) ^ 15 = 32768 := by norm_num
  have e16 : (2 : ℤ) ^ 16 = 65536 := by norm_num
  rw [e15, e16]
  omega

/-- C9 (amended).  For any oracle whose samples are in the `int16_t`
range, `libsame_attn_sig_gen` stores the sum of the two truncated halves
`osc(t,853)/2 + osc(t,960)/2` (each an `int32_t` truncating division by
`sizeof(int16_t)`), with `t = attn_sig_sample_num / sample_rate` in
binary32; this differs from the claimed `⌊(s₁ + s₂) / 2⌋` by at most one
least-significant bit, and the attention sample counter advances by one. -/
theorem attn_sig_sample (osc : F32 → F32 → ℤ) (c : GenCtx) (p : ℕ)
    (hb1l : -32768 ≤ osc (attnT c) attnFreqFirst)
    (hb1u : osc (attnT c) attnFreqFirst ≤ 32767)
    (hb2l : -32768 ≤ osc (attnT c) attnFreqSecond)
    (hb2u : osc (attnT c) attnFreqSecond ≤ 32767) :
    (libsame_attn_sig_gen osc c p).sample_data p =
      (osc (attnT c) attnFreqFirst).tdiv 2 +
        (osc (attnT c) attnFreqSecond).tdiv 2 ∧
    |(libsame_attn_sig_gen osc c p).sample_data p -
        ⌊((osc (attnT c) attnFreqFirst +
            osc (attnT c) attnFreqSecond : ℤ) : ℚ) / 2⌋| ≤ 1 ∧
    (libsame_attn_sig_gen osc c p).attn_sig_sample_num =
      c.attn_sig_sample_num + 1 := by
  have hstore : (libsame_attn_sig_gen osc c p).sample_data p =
      i16cast ((osc (attnT c) attnFreqFirst).tdiv 2 +
        (osc (attnT c) attnFreqSecond).tdiv 2) :=
    Function.update_same _ _ _
  have hb1 := tdiv_two_eq (osc (attnT c) attnFreqFirst)
  have hb2 := tdiv_two_eq (osc (attnT c) attnFreqSecond)
  have hsum : (libsame_attn_sig_gen osc c p).sample_data p =
      (osc (attnT c) attnFreqFirst).tdiv 2 +
        (osc (attnT c) attnFreqSecond).tdiv 2 := by
    rw [hstore]
    refine i16cast_eq_self _ ?_ ?_ <;>
      · rw [hb1, hb2]
        split_ifs <;> omega
  refine ⟨hsum, ?_, rfl⟩
  have hfloor : ⌊((osc (attnT c) attnFreqFirst +
      osc (attnT c) attnFreqSecond : ℤ) : ℚ) / 2⌋ =
      (osc (attnT c) attnFreqFirst + osc (attnT c) attnFreqSecond) / 2 := by
    rw [show (2 : ℚ) = ((2 : ℕ) : ℚ) by norm_num]
    exact Rat.floor_intCast_div_natCast _ _
  rw [hsum, hfloor, abs_le, hb1, hb2]
  constructor <;> (split_ifs <;> omega)

/-- A constant oracle: a legitimate instantiation of the sine engine
(`LIBSAME_CONFIG_SINE_USE_APP` accepts any caller-supplied generator). -/
def constOsc : F32 → F32 → ℤ := fun _ _ => 1

/-- C9 counterexample: with an oracle returning 1 for both tones, the
stored sample is `1/2 + 1/2 = 0`, while the claimed
`⌊(sin + sin) / 2⌋`-form yields `⌊2 / 2⌋ = 1`. -/
theorem c9_counterexample :
    (libsame_attn_sig_gen constOsc zeroCtx 0).sample_data 0 = 0 ∧
      ⌊((constOsc (attnT zeroCtx) attnFreqFirst +
          constOsc (attnT zeroCtx) attnFreqSecond : ℤ) : ℚ) / 2⌋ = 1 ∧
      (libsame_attn_sig_gen constOsc zeroCtx 0).sample_data 0 ≠
        ⌊((constOsc (attnT zeroCtx) attnFreqFirst +
            constOsc (attnT zeroCtx) attnFreqSecond : ℤ) : ℚ) / 2⌋ := by
  have h2 : ((constOsc (attnT zeroCtx) attnFreqFirst +
      constOsc (attnT zeroCtx) attnFreqSecond : ℤ) : ℚ) / 2 = 1 := by
    norm_num [constOsc]
  have hz : (libsame_attn_sig_gen constOsc zeroCtx 0).sample_data 0 = 0 := by
    decide
  refine ⟨hz, ?_, ?_⟩
  · rw [h2, Int.floor_one]
  · rw [hz, h2, Int.floor_one]
    decide

end Libsame

namespace Libsame

/-- Witness for C9's amended theorem at a concrete in-range oracle. -/
theorem attn_sig_sample_witness :
    (-32768 ≤ constOsc (attnT zeroCtx) attnFreqFirst) ∧
      (constOsc (attnT zeroCtx) attnFreqFirst ≤ 32767) ∧
      (-32768 ≤ constOsc (attnT zeroCtx) attnFreqSecond) ∧
      (constOsc (attnT zeroCtx) attnFreqSecond ≤ 32767) ∧
      ((libsame_attn_sig_gen constOsc zeroCtx 0).sample_data 0 =
          (constOsc (attnT zeroCtx) attnFreqFirst).tdiv 2 +
            (constOsc (attnT zeroCtx) attnFreqSecond).tdiv 2 ∧
        |(libsame_attn_sig_gen constOsc zeroCtx 0).sample_data 0 -
            ⌊((constOsc (attnT zeroCtx) attnFreqFirst +
                constOsc (attnT zeroCtx) attnFreqSecond : ℤ) : ℚ) / 2⌋| ≤ 1 ∧
        (libsame_attn_sig_gen constOsc zeroCtx 0).attn_sig_sample_num =
          zeroCtx.attn_sig_sample_num + 1) :=
  ⟨by decide, by decide, by decide, by decide,
    attn_sig_sample constOsc zeroCtx 0 (by decide) (by decide) (by decide)
      (by decide)⟩

end Libsame

namespace Libsame

/-! ## The AFSK modulator state (C5) -/

/-- The AFSK sub-state after `n` generated samples of a burst over a
buffer of `data_size` bytes, starting from the cleared sub-state. -/
def afskStateAt (spb data_size n : ℕ) : AfskState :=
  (afskNext spb data_size)^[n] ⟨0, 0, 0⟩

/-- Running `s < spb` advances inside one bit only counts samples. -/
theorem afskNext_iter_inbit (spb len i j : ℕ) :
    ∀ s, s < spb → (afskNext spb len)^[s] ⟨i, j, 0⟩ = ⟨i, j, s⟩ := by
  intro s
  induction s with
  | zero => intro _; rfl
  | succ m ih =>
    intro hm
    rw [Function.iterate_succ_apply', ih (by omega)]
    unfold afskNext
    rw [if_neg (by simp only []; omega)]

/-- Running exactly `spb` advances from a bit boundary rolls over into the
next bit (or byte, or clears the sub-state at the end of the buffer). -/
theorem afskNext_iter_bit (spb len i j : ℕ) (hspb : 0 < spb) :
    (afskNext spb len)^[spb] ⟨i, j, 0⟩ =
      if 8 ≤ j + 1 then
        (if len ≤ i + 1 then ⟨0, 0, 0⟩ else ⟨i + 1, 0, 0⟩)
      else ⟨i, j + 1, 0⟩ := by
  obtain ⟨m, rfl⟩ : ∃ m, spb = m + 1 := ⟨spb - 1, by omega⟩
  rw [Function.iterate_succ_apply',
    afskNext_iter_inbit (m + 1) len i j m (by omega)]
  unfold afskNext
  rw [if_pos (by simp only []; omega)]

/-- Running `j * spb` advances from a byte boundary reaches bit `j`
(for `j ≤ 7`). -/
theorem afskNext_iter_toBit (spb len i : ℕ) (hspb : 0 < spb) :
    ∀ j, j ≤ 7 → (afskNext spb len)^[j * spb] ⟨i, 0, 0⟩ = ⟨i, j, 0⟩ := by
  intro j
  induction j with
  | zero => intro _; rw [Nat.zero_mul]; rfl
  | succ m ih =>
    intro hm
    have e : (m + 1) * spb = spb + m * spb := by ring
    rw [e, Function.iterate_add_apply, ih (by omega),
      afskNext_iter_bit spb len i m hspb, if_neg (by omega)]

/-- Running `8 * spb` advances from a byte boundary reaches the next byte
(or clears the sub-state at the end of the buffer). -/
theorem afskNext_iter_byte (spb len i : ℕ) (hspb : 0 < spb) :
    (afskNext spb len)^[8 * spb] ⟨i, 0, 0⟩ =
      if len ≤ i + 1 then ⟨0, 0, 0⟩ else ⟨i + 1, 0, 0⟩ := by
  have e : 8 * spb = spb + 7 * spb := by ring
  rw [e, Function.iterate_add_apply,
    afskNext_iter_toBit spb len i hspb 7 (by omega),
    afskNext_iter_bit spb len i 7 hspb, if_pos (by omega)]

/-- Running `i * 8 * spb` samples from the cleared sub-state reaches byte
`i` (for `i` within the buffer). -/
theorem afskNext_iter_toByte (spb len : ℕ) (hspb : 0 < spb) :
    ∀ i, i < len → afskStateAt spb len (i * (8 * spb)) = ⟨i, 0, 0⟩ := by
  intro i
  induction i with
  | zero => intro _; rw [Nat.zero_mul]; rfl
  | succ m ih =>
    intro hm
    unfold afskStateAt
    have e : (m + 1) * (8 * spb) = 8 * spb + m * (8 * spb) := by ring
    rw [e, Function.iterate_add_apply]
    show (afskNext spb len)^[8 * spb] (afskStateAt spb len (m * (8 * spb))) = _
    rw [ih (by omega), afskNext_iter_byte spb len m hspb, if_neg (by omega)]

/-- The canonical AFSK sub-state at sample `i·8·spb + j·spb + s` of a
burst: byte `i`, bit `j`, sample `s`. -/
theorem afskStateAt_canonical (spb len i j s : ℕ) (hspb : 0 < spb)
    (hi : i < len) (hj : j < 8) (hs : s < spb) :
    afskStateAt spb len (i * (8 * spb) + j * spb + s) = ⟨i, j, s⟩ := by
  unfold afskStateAt
  have e : i * (8 * spb) + j * spb + s = s + (j * spb + i * (8 * spb)) := by
    ring
  rw [e, Function.iterate_add_apply, Function.iterate_add_apply]
  show (afskNext spb len)^[s] ((afskNext spb len)^[j * spb]
    (afskStateAt spb len (i * (8 * spb)))) = _
  rw [afskNext_iter_toByte spb len hspb i hi,
    afskNext_iter_toBit spb len i hspb j (by omega),
    afskNext_iter_inbit spb len i j s hs]

end Libsame

namespace Libsame

/-- `n` consecutive `libsame_afsk_gen` calls over one burst, the `k`-th
storing at buffer position `k` — the per-sample view of an AFSK burst
phase. -/
def runAfsk (osc : F32 → F32 → ℤ) (data : ℕ → ℕ) (len : ℕ) (c : GenCtx) :
    ℕ → GenCtx
  | 0 => c
  | n + 1 => libsame_afsk_gen osc data len (runAfsk osc data len c n) n

/-- A burst run evolves the AFSK sub-state by iterating `afskNext` and
never changes the samples-per-bit. -/
theorem runAfsk_afsk (osc : F32 → F32 → ℤ) (data : ℕ → ℕ) (len : ℕ)
    (c : GenCtx) : ∀ n,
    (runAfsk osc data len c n).afsk =
      (afskNext c.afsk_samples_per_bit len)^[n] c.afsk ∧
    (runAfsk osc data len c n).afsk_samples_per_bit =
      c.afsk_samples_per_bit := by
  intro n
  induction n with
  | zero => exact ⟨rfl, rfl⟩
  | succ m ih =>
    refine ⟨?_, ih.2⟩
    show afskNext (runAfsk osc data len c m).afsk_samples_per_bit len
      (runAfsk osc data len c m).afsk = _
    rw [ih.2, ih.1, Function.iterate_succ_apply']

/-- C5.  The AFSK modulator emits bits LSB-first: starting a burst from
the cleared sub-state, every sample at position `i·8·spb + j·spb + s`
(`i` a byte index, `j < 8` a bit index, `s < spb`) selects the MARK
frequency exactly when bit `j` of source byte `i` — `(data[i] >> j) & 1`
— is set, and SPACE otherwise; the sample stored at that position is the
oracle's sample at the selected frequency. -/
theorem afsk_lsb_first (osc : F32 → F32 → ℤ) (data : ℕ → ℕ) (len : ℕ)
    (c : GenCtx) (i j s : ℕ) (hz : c.afsk = ⟨0, 0, 0⟩)
    (hspb : 0 < c.afsk_samples_per_bit) (hi : i < len) (hj : j < 8)
    (hs : s < c.afsk_samples_per_bit) :
    afskFreq data
        ((runAfsk osc data len c
          (i * (8 * c.afsk_samples_per_bit) +
            j * c.afsk_samples_per_bit + s)).afsk) =
      (if (data i >>> j) % 2 = 1 then markFreq else spaceFreq) ∧
    markFreq ≠ spaceFreq ∧
    (runAfsk osc data len c
        (i * (8 * c.afsk_samples_per_bit) + j * c.afsk_samples_per_bit + s +
          1)).sample_data
        (i * (8 * c.afsk_samples_per_bit) + j * c.afsk_samples_per_bit + s) =
      osc
        (afskT (runAfsk osc data len c
          (i * (8 * c.afsk_samples_per_bit) +
            j * c.afsk_samples_per_bit + s)))
        (if (data i >>> j) % 2 = 1 then markFreq else spaceFreq) := by
  have hstate : (runAfsk osc data len c
      (i * (8 * c.afsk_samples_per_bit) + j * c.afsk_samples_per_bit + s)).afsk =
      (⟨i, j, s⟩ : AfskState) := by
    rw [(runAfsk_afsk osc data len c _).1, hz]
    exact afskStateAt_canonical c.afsk_samples_per_bit len i j s hspb hi hj hs
  have hfreq : afskFreq data
      ((runAfsk osc data len c
        (i * (8 * c.afsk_samples_per_bit) +
          j * c.afsk_samples_per_bit + s)).afsk) =
      (if (data i >>> j) % 2 = 1 then markFreq else spaceFreq) := by
    rw [hstate]
    rfl
  refine ⟨hfreq, by decide, ?_⟩
  show Function.update
      (runAfsk osc data len c
        (i * (8 * c.afsk_samples_per_bit) +
          j * c.afsk_samples_per_bit + s)).sample_data
      (i * (8 * c.afsk_samples_per_bit) + j * c.afsk_samples_per_bit + s)
      (osc (afskT _) (afskFreq data _)) _ = _
  rw [Function.update_same, hfreq]

/-- Witness for C5 at a concrete burst: the EOM buffer, two samples per
bit, byte 0 and bit 1 (byte 0xAB = 1010'1011 has bit 1 set). -/
theorem afsk_lsb_first_witness :
    (({ zeroCtx with afsk_samples_per_bit := 2 } : GenCtx).afsk =
        (⟨0, 0, 0⟩ : AfskState)) ∧
      (0 < ({ zeroCtx with afsk_samples_per_bit := 2 } : GenCtx).afsk_samples_per_bit) ∧
      (0 < 20) ∧ (1 < 8) ∧
      (1 < ({ zeroCtx with afsk_samples_per_bit := 2 } : GenCtx).afsk_samples_per_bit) ∧
      (afskFreq eomData
          ((runAfsk zeroOsc eomData 20 { zeroCtx with afsk_samples_per_bit := 2 }
            (0 * (8 * ({ zeroCtx with afsk_samples_per_bit := 2 } : GenCtx).afsk_samples_per_bit) +
              1 * ({ zeroCtx with afsk_samples_per_bit := 2 } : GenCtx).afsk_samples_per_bit + 1)).afsk) =
        (if (eomData 0 >>> 1) % 2 = 1 then markFreq else spaceFreq) ∧
      markFreq ≠ spaceFreq ∧
      (runAfsk zeroOsc eomData 20 { zeroCtx with afsk_samples_per_bit := 2 }
          (0 * (8 * ({ zeroCtx with afsk_samples_per_bit := 2 } : GenCtx).afsk_samples_per_bit) +
            1 * ({ zeroCtx with afsk_samples_per_bit := 2 } : GenCtx).afsk_samples_per_bit + 1 +
            1)).sample_data
          (0 * (8 * ({ zeroCtx with afsk_samples_per_bit := 2 } : GenCtx).afsk_samples_per_bit) +
            1 * ({ zeroCtx with afsk_samples_per_bit := 2 } : GenCtx).afsk_samples_per_bit + 1) =
        zeroOsc
          (afskT (runAfsk zeroOsc eomData 20 { zeroCtx with afsk_samples_per_bit := 2 }
            (0 * (8 * ({ zeroCtx with afsk_samples_per_bit := 2 } : GenCtx).afsk_samples_per_bit) +
              1 * ({ zeroCtx with afsk_samples_per_bit := 2 } : GenCtx).afsk_samples_per_bit + 1)))
          (if (eomData 0 >>> 1) % 2 = 1 then markFreq else spaceFreq)) :=
  ⟨by decide, by decide, by decide, by decide, by decide,
    afsk_lsb_first zeroOsc eomData 20 { zeroCtx with afsk_samples_per_bit := 2 }
      0 1 1 (by decide) (by decide) (by decide) (by decide) (by decide)⟩

end Libsame

namespace Libsame

/-! ## The sequence state machine (C7) -/

/-- The per-sample dispatch never touches the sequence bookkeeping. -/
theorem dispatch_seq (osc : F32 → F32 → ℤ) (c : GenCtx) (p : ℕ) :
    (genDispatch osc c p).seq_state = c.seq_state ∧
    (genDispatch osc c p).seq_samples_remaining = c.seq_samples_remaining := by
  unfold genDispatch
  split_ifs <;> exact ⟨rfl, rfl⟩

/-- One non-terminal generator step: decrement the current phase's budget
in `unsigned int` arithmetic and advance the phase exactly when the
decremented budget is zero. -/
theorem genStep_spec (osc : F32 → F32 → ℤ) (p : ℕ) (c : GenCtx)
    (h : c.seq_state < 14) :
    (genStep osc p c).seq_state =
      (if (c.seq_samples_remaining c.seq_state + (U32 - 1)) % U32 = 0
        then c.seq_state + 1 else c.seq_state) ∧
    (genStep osc p c).seq_samples_remaining =
      Function.update c.seq_samples_remaining c.seq_state
        ((c.seq_samples_remaining c.seq_state + (U32 - 1)) % U32) := by
  have hg : genStep osc p c = seqAdvance (genDispatch osc c p) := by
    unfold genStep
    rw [if_neg (by omega)]
  have hd := dispatch_seq osc c p
  rw [hg, seqAdvance_eq, hd.1, hd.2]
  by_cases hr : (c.seq_samples_remaining c.seq_state + (U32 - 1)) % U32 = 0
  · rw [if_pos hr, if_pos hr]
    exact ⟨rfl, rfl⟩
  · rw [if_neg hr, if_neg hr]
    exact ⟨rfl, rfl⟩

/-- A terminal context is never stepped: the step is the identity there. -/
theorem genStep_term (osc : F32 → F32 → ℤ) (p : ℕ) (c : GenCtx)
    (h : 14 ≤ c.seq_state) : genStep osc p c = c := by
  unfold genStep
  rw [if_pos h]

/-- The phase index never decreases and never skips. -/
theorem genStep_state_le (osc : F32 → F32 → ℤ) (p : ℕ) (c : GenCtx) :
    c.seq_state ≤ (genStep osc p c).seq_state ∧
    (genStep osc p c).seq_state ≤ c.seq_state + 1 := by
  by_cases h : 14 ≤ c.seq_state
  · rw [genStep_term osc p c h]
    omega
  · rw [(genStep_spec osc p c (by omega)).1]
    split_ifs <;> omega

/-- The phase advances (by exactly one) precisely when the decremented
budget of the current phase has reached zero. -/
theorem genStep_advance_iff (osc : F32 → F32 → ℤ) (p : ℕ) (c : GenCtx)
    (h : c.seq_state < 14) :
    ((genStep osc p c).seq_state = c.seq_state + 1 ↔
      (genStep osc p c).seq_samples_remaining c.seq_state = 0) := by
  have hs := genStep_spec osc p c h
  rw [hs.1, hs.2, Function.update_same]
  by_cases hr : (c.seq_samples_remaining c.seq_state + (U32 - 1)) % U32 = 0
  · rw [if_pos hr]
    exact ⟨fun _ => hr, fun _ => rfl⟩
  · rw [if_neg hr]
    exact ⟨fun he => absurd he (by omega), fun he => absurd he hr⟩

/-- Composition of runs: running `n + m` steps is running `m` steps (with
shifted positions) after the first `n`. -/
theorem runGen_comp (osc : F32 → F32 → ℤ) (pos : ℕ → ℕ) (c : GenCtx)
    (n : ℕ) : ∀ m, runGen osc pos c (n + m) =
      runGen osc (fun k => pos (n + k)) (runGen osc pos c n) m := by
  intro m
  induction m with
  | zero => rfl
  | succ l ih =>
    show genStep osc (pos (n + l)) (runGen osc pos c (n + l)) = _
    rw [ih]
    rfl

end Libsame

namespace Libsame

/-- The number of samples a phase with stored budget `b` lasts: `b` when
positive; `2 ^ 32` when the stored budget is zero, because the unsigned
post-decrement test wraps around before reaching zero again. -/
def phaseDur (b : ℕ) : ℕ := if b = 0 then U32 else b

/-- Counting a positive budget down: the phase index holds for `b - 1`
further samples and advances at sample `b`, leaving the finished phase's
budget at zero and every other budget untouched. -/
theorem runGen_countdown (osc : F32 → F32 → ℤ) :
    ∀ b, 0 < b → b < U32 → ∀ (pos : ℕ → ℕ) (c : GenCtx),
      c.seq_state < 14 → c.seq_samples_remaining c.seq_state = b →
      (∀ k, k < b → (runGen osc pos c k).seq_state = c.seq_state) ∧
      (runGen osc pos c b).seq_state = c.seq_state + 1 ∧
      (runGen osc pos c b).seq_samples_remaining c.seq_state = 0 ∧
      (∀ q, q ≠ c.seq_state →
        (runGen osc pos c b).seq_samples_remaining q =
          c.seq_samples_remaining q) := by
  intro b
  induction b with
  | zero => omega
  | succ m ih =>
    intro hb hbU pos c hst hrem
    have hU : U32 = 4294967296 := by norm_num [U32]
    have hs := genStep_spec osc (pos 0) c hst
    by_cases hm : m = 0
    · subst hm
      have hr : (c.seq_samples_remaining c.seq_state + (U32 - 1)) % U32 = 0 := by
        rw [hrem, hU]
      refine ⟨?_, ?_, ?_, ?_⟩
      · intro k hk
        have hk0 : k = 0 := by omega
        rw [hk0]
        rfl
      · show (genStep osc (pos 0) c).seq_state = _
        rw [hs.1, if_pos hr]
      · show (genStep osc (pos 0) c).seq_samples_remaining c.seq_state = 0
        rw [hs.2, Function.update_same]
        exact hr
      · intro q hq
        show (genStep osc (pos 0) c).seq_samples_remaining q = _
        rw [hs.2, Function.update_noteq hq]
    · rw [hU] at hbU
      have hr : (c.seq_samples_remaining c.seq_state + (U32 - 1)) % U32 = m := by
        rw [hrem, hU]
        omega
      have hrne : (c.seq_samples_remaining c.seq_state + (U32 - 1)) % U32 ≠ 0 := by
        omega
      have hst1 : (genStep osc (pos 0) c).seq_state = c.seq_state := by
        rw [hs.1, if_neg hrne]
      have hrem1 : (genStep osc (pos 0) c).seq_samples_remaining
          ((genStep osc (pos 0) c).seq_state) = m := by
        rw [hst1, hs.2, Function.update_same]
        exact hr
      have ihs := ih (by omega) (by omega) (fun k => pos (1 + k))
        (genStep osc (pos 0) c) (by rw [hst1]; omega) hrem1
      have hcomp : ∀ k, runGen osc pos c (1 + k) =
          runGen osc (fun t => pos (1 + t)) (genStep osc (pos 0) c) k :=
        fun k => runGen_comp osc pos c 1 k
      refine ⟨?_, ?_, ?_, ?_⟩
      · intro k hk
        match k with
        | 0 => rfl
        | k + 1 =>
          have e : k + 1 = 1 + k := by omega
          rw [e, hcomp k, ihs.1 k (by omega), hst1]
      · have e : m + 1 = 1 + m := by omega
        rw [e, hcomp m, ihs.2.1, hst1]
      · have e : m + 1 = 1 + m := by omega
        rw [e, hcomp m]
        have := ihs.2.2.1
        rw [hst1] at this
        exact this
      · intro q hq
        have e : m + 1 = 1 + m := by omega
        rw [e, hcomp m]
        have h2 := ihs.2.2.2 q (by rw [hst1]; exact hq)
        rw [h2]
        show (genStep osc (pos 0) c).seq_samples_remaining q = _
        rw [hs.2, Function.update_noteq hq]

end Libsame

namespace Libsame

/-- A full phase, including the zero-budget wrap-around case: from a
non-terminal context whose stored budgets are below `2 ^ 32`, the phase
index holds for `phaseDur b` samples, then advances by one, leaving the
finished phase's budget at zero and the others untouched. -/
theorem runGen_phase (osc : F32 → F32 → ℤ) (pos : ℕ → ℕ) (c : GenCtx)
    (hst : c.seq_state < 14)
    (hb : c.seq_samples_remaining c.seq_state < U32) :
    (∀ k, k < phaseDur (c.seq_samples_remaining c.seq_state) →
      (runGen osc pos c k).seq_state = c.seq_state) ∧
    (runGen osc pos c
      (phaseDur (c.seq_samples_remaining c.seq_state))).seq_state =
        c.seq_state + 1 ∧
    (runGen osc pos c
      (phaseDur (c.seq_samples_remaining c.seq_state))).seq_samples_remaining
        c.seq_state = 0 ∧
    (∀ q, q ≠ c.seq_state →
      (runGen osc pos c
        (phaseDur (c.seq_samples_remaining c.seq_state))).seq_samples_remaining
          q = c.seq_samples_remaining q) := by
  have hU : U32 = 4294967296 := by norm_num [U32]
  by_cases h0 : c.seq_samples_remaining c.seq_state = 0
  · -- zero budget: the unsigned decrement wraps to 2^32 - 1 first
    have hd : phaseDur (c.seq_samples_remaining c.seq_state) = U32 := by
      rw [phaseDur, if_pos h0]
    have hs := genStep_spec osc (pos 0) c hst
    have hr : (c.seq_samples_remaining c.seq_state + (U32 - 1)) % U32 =
        U32 - 1 := by
      rw [h0, hU]
    have hst1 : (genStep osc (pos 0) c).seq_state = c.seq_state := by
      rw [hs.1, if_neg (by rw [hr]; rw [hU]; omega)]
    have hrem1 : (genStep osc (pos 0) c).seq_samples_remaining
        ((genStep osc (pos 0) c).seq_state) = U32 - 1 := by
      rw [hst1, hs.2, Function.update_same]
      exact hr
    have hcd := runGen_countdown osc (U32 - 1) (by rw [hU]; omega)
      (by omega) (fun t => pos (1 + t)) (genStep osc (pos 0) c)
      (by rw [hst1]; omega) hrem1
    have hcomp : ∀ k, runGen osc pos c (1 + k) =
        runGen osc (fun t => pos (1 + t)) (genStep osc (pos 0) c) k :=
      fun k => runGen_comp osc pos c 1 k
    have hsplit : U32 = 1 + (U32 - 1) := by rw [hU]
    refine ⟨?_, ?_, ?_, ?_⟩
    · intro k hk
      rw [hd] at hk
      match k with
      | 0 => rfl
      | k + 1 =>
        have e : k + 1 = 1 + k := by omega
        rw [e, hcomp k, hcd.1 k (by omega), hst1]
    · rw [hd, hsplit, hcomp (U32 - 1), hcd.2.1, hst1]
    · rw [hd, hsplit, hcomp (U32 - 1)]
      have h2 := hcd.2.2.1
      rw [hst1] at h2
      exact h2
    · intro q hq
      rw [hd, hsplit, hcomp (U32 - 1)]
      have h2 := hcd.2.2.2 q (by rw [hst1]; exact hq)
      rw [h2]
      show (genStep osc (pos 0) c).seq_samples_remaining q = _
      rw [hs.2, Function.update_noteq hq]
  · have hd : phaseDur (c.seq_samples_remaining c.seq_state) =
        c.seq_samples_remaining c.seq_state := by
      rw [phaseDur, if_neg h0]
    rw [hd]
    exact runGen_countdown osc _ (by omega) hb pos c hst rfl

end Libsame

namespace Libsame

/-- From any non-terminal context with in-range budgets, every phase index
up to `seq_state + k ≤ 14` is eventually reached. -/
theorem runGen_climb (osc : F32 → F32 → ℤ) :
    ∀ (k : ℕ) (pos : ℕ → ℕ) (c : GenCtx), c.seq_state < 14 →
      c.seq_state + k ≤ 14 →
      (∀ q, q < 14 → c.seq_samples_remaining q < U32) →
      ∃ n, (runGen osc pos c n).seq_state = c.seq_state + k := by
  intro k
  induction k with
  | zero => exact fun pos c _ _ _ => ⟨0, rfl⟩
  | succ m ih =>
    intro pos c hst hk hinv
    have hph := runGen_phase osc pos c hst (hinv _ hst)
    set d := phaseDur (c.seq_samples_remaining c.seq_state) with hd
    by_cases hm : m = 0
    · subst hm
      exact ⟨d, by rw [hph.2.1]⟩
    · have hst1 : (runGen osc pos c d).seq_state = c.seq_state + 1 := hph.2.1
      have hinv1 : ∀ q, q < 14 →
          (runGen osc pos c d).seq_samples_remaining q < U32 := by
        intro q hq
        by_cases hqs : q = c.seq_state
        · rw [hqs, hph.2.2.1]
          norm_num [U32]
        · rw [hph.2.2.2 q hqs]
          exact hinv q hq
      obtain ⟨n1, hn1⟩ := ih (fun t => pos (d + t)) (runGen osc pos c d)
        (by omega) (by omega) hinv1
      refine ⟨d + n1, ?_⟩
      rw [runGen_comp osc pos c d n1, hn1, hst1]
      omega
  
/-- The terminal state absorbs: once the phase index is 14 it stays 14. -/
theorem runGen_term_absorbing (osc : F32 → F32 → ℤ) (pos : ℕ → ℕ)
    (c : GenCtx) : ∀ n m, n ≤ m →
      (runGen osc pos c n).seq_state = 14 →
      (runGen osc pos c m).seq_state = 14 := by
  intro n m
  induction m with
  | zero =>
    intro hnm h
    have : n = 0 := by omega
    rw [← this]
    exact h
  | succ l ih =>
    intro hnm h
    by_cases hnl : n = l + 1
    · rw [← hnl]; exact h
    · have hl := ih (by omega) h
      show (genStep osc (pos l) (runGen osc pos c l)).seq_state = 14
      rw [genStep_term osc (pos l) _ (by omega)]
      exact hl

/-- Every budget `libsame_ctx_init` stores for the fourteen phases is an
`unsigned int` value, hence below `2 ^ 32`. -/
theorem ctx_init_remaining_lt (c : GenCtx) (h : LibsameHeader) (sr q : ℕ)
    (hq : q < 14) :
    (libsame_ctx_init c h sr).seq_samples_remaining q < U32 := by
  show (if q = 0 ∨ q = 2 ∨ q = 4 then _
    else if q = 8 ∨ q = 10 ∨ q = 12 then _
    else if q = 6 then _
    else if q < 14 then _
    else c.seq_samples_remaining q) < U32
  have hU : 0 < U32 := by norm_num [U32]
  split_ifs <;> exact Nat.mod_lt _ hU

end Libsame

namespace Libsame

/-- C7.  For a context initialized by `libsame_ctx_init` from a valid
descriptor on a zeroed context with a positive sample rate, the per-sample
generator steps visit every phase index 0..13 in order and then the
terminal value 14: the phase index never decreases, never advances by more
than one per sample, advances by exactly one precisely when the current
phase's remaining-sample count reaches zero, every phase index up to the
terminal 14 is reached, and the terminal state is absorbing.  The buffer
positions `pos` the steps write to are arbitrary. -/
theorem seq_state_progression (osc : F32 → F32 → ℤ) (pos : ℕ → ℕ)
    (h : LibsameHeader) (sr : ℕ) (_hv : h.Valid) (_hsr : 0 < sr) :
    (∀ n, (runGen osc pos (libsame_ctx_init zeroCtx h sr) n).seq_state ≤
        (runGen osc pos (libsame_ctx_init zeroCtx h sr) (n + 1)).seq_state) ∧
    (∀ n, (runGen osc pos (libsame_ctx_init zeroCtx h sr) (n + 1)).seq_state ≤
        (runGen osc pos (libsame_ctx_init zeroCtx h sr) n).seq_state + 1) ∧
    (∀ n, (runGen osc pos (libsame_ctx_init zeroCtx h sr) n).seq_state < 14 →
      ((runGen osc pos (libsame_ctx_init zeroCtx h sr) (n + 1)).seq_state =
          (runGen osc pos (libsame_ctx_init zeroCtx h sr) n).seq_state + 1 ↔
        (runGen osc pos (libsame_ctx_init zeroCtx h sr)
            (n + 1)).seq_samples_remaining
          ((runGen osc pos (libsame_ctx_init zeroCtx h sr) n).seq_state) = 0)) ∧
    (∀ p, p ≤ 14 → ∃ n,
      (runGen osc pos (libsame_ctx_init zeroCtx h sr) n).seq_state = p) ∧
    (∀ n m, n ≤ m →
      (runGen osc pos (libsame_ctx_init zeroCtx h sr) n).seq_state = 14 →
      (runGen osc pos (libsame_ctx_init zeroCtx h sr) m).seq_state = 14) := by
  have hz : (libsame_ctx_init zeroCtx h sr).seq_state = 0 := rfl
  refine ⟨?_, ?_, ?_, ?_, runGen_term_absorbing osc pos _⟩
  · intro n
    exact (genStep_state_le osc (pos n)
      (runGen osc pos (libsame_ctx_init zeroCtx h sr) n)).1
  · intro n
    exact (genStep_state_le osc (pos n)
      (runGen osc pos (libsame_ctx_init zeroCtx h sr) n)).2
  · intro n hn
    exact genStep_advance_iff osc (pos n)
      (runGen osc pos (libsame_ctx_init zeroCtx h sr) n) hn
  · intro p hp
    obtain ⟨n, hn⟩ := runGen_climb osc p pos (libsame_ctx_init zeroCtx h sr)
      (by rw [hz]; omega) (by rw [hz]; omega)
      (fun q hq => ctx_init_remaining_lt zeroCtx h sr q hq)
    refine ⟨n, ?_⟩
    rw [hn, hz]
    omega

/-- Witness for C7 at the Scenario 1 descriptor and 44100 Hz. -/
theorem seq_state_progression_witness :
    scenario1.Valid ∧ 0 < 44100 ∧
      ((∀ n, (runGen zeroOsc id (libsame_ctx_init zeroCtx scenario1 44100)
            n).seq_state ≤
          (runGen zeroOsc id (libsame_ctx_init zeroCtx scenario1 44100)
            (n + 1)).seq_state) ∧
        (∀ n, (runGen zeroOsc id (libsame_ctx_init zeroCtx scenario1 44100)
            (n + 1)).seq_state ≤
          (runGen zeroOsc id (libsame_ctx_init zeroCtx scenario1 44100)
            n).seq_state + 1) ∧
        (∀ n, (runGen zeroOsc id (libsame_ctx_init zeroCtx scenario1 44100)
            n).seq_state < 14 →
          ((runGen zeroOsc id (libsame_ctx_init zeroCtx scenario1 44100)
              (n + 1)).seq_state =
            (runGen zeroOsc id (libsame_ctx_init zeroCtx scenario1 44100)
              n).seq_state + 1 ↔
          (runGen zeroOsc id (libsame_ctx_init zeroCtx scenario1 44100)
              (n + 1)).seq_samples_remaining
            ((runGen zeroOsc id (libsame_ctx_init zeroCtx scenario1 44100)
              n).seq_state) = 0)) ∧
        (∀ p, p ≤ 14 → ∃ n,
          (runGen zeroOsc id (libsame_ctx_init zeroCtx scenario1 44100)
            n).seq_state = p) ∧
        (∀ n m, n ≤ m →
          (runGen zeroOsc id (libsame_ctx_init zeroCtx scenario1 44100)
            n).seq_state = 14 →
          (runGen zeroOsc id (libsame_ctx_init zeroCtx scenario1 44100)
            m).seq_state = 14)) :=
  ⟨by decide, by decide,
    seq_state_progression zeroOsc id scenario1 44100 (by decide) (by decide)⟩

end Libsame

namespace Libsame

/-! ## The chunk driver contract (C8) -/

/-- The sample value the dispatch produces for the current phase: an AFSK
sample over the header or EOM buffer, an attention-signal sample, or
silence. -/
def genEmit (osc : F32 → F32 → ℤ) (c : GenCtx) : ℤ :=
  if c.seq_state = 0 ∨ c.seq_state = 2 ∨ c.seq_state = 4 then
    osc (afskT c) (afskFreq c.header_data c.afsk)
  else if c.seq_state = 6 then
    i16cast ((osc (attnT c) attnFreqFirst).tdiv 2 +
      (osc (attnT c) attnFreqSecond).tdiv 2)
  else if c.seq_state = 8 ∨ c.seq_state = 10 ∨ c.seq_state = 12 then
    osc (afskT c) (afskFreq eomData c.afsk)
  else 0

/-- The dispatch writes only position `sample_pos` of the buffer. -/
theorem dispatch_buffer_frame (osc : F32 → F32 → ℤ) (c : GenCtx) (p i : ℕ)
    (hip : i ≠ p) :
    (genDispatch osc c p).sample_data i = c.sample_data i := by
  unfold genDispatch
  split_ifs <;> exact Function.update_noteq hip _ _

/-- The dispatch stores exactly the emitted sample at `sample_pos`. -/
theorem dispatch_buffer_at (osc : F32 → F32 → ℤ) (c : GenCtx) (p : ℕ) :
    (genDispatch osc c p).sample_data p = genEmit osc c := by
  unfold genDispatch genEmit
  split_ifs <;> exact Function.update_same _ _ _

/-- The bookkeeping never touches the buffer. -/
theorem seqAdvance_buffer (c : GenCtx) :
    (seqAdvance c).sample_data = c.sample_data := by
  rw [seqAdvance_eq]
  by_cases hr : (c.seq_samples_remaining c.seq_state + (U32 - 1)) % U32 = 0
  · rw [if_pos hr]
  · rw [if_neg hr]

/-- One step writes only its own buffer position. -/
theorem genStep_buffer_frame (osc : F32 → F32 → ℤ) (p : ℕ) (c : GenCtx)
    (i : ℕ) (hip : i ≠ p) :
    (genStep osc p c).sample_data i = c.sample_data i := by
  unfold genStep
  split_ifs with h
  · rfl
  · rw [show (seqAdvance (genDispatch osc c p)).sample_data =
        (genDispatch osc c p).sample_data from seqAdvance_buffer _]
    exact dispatch_buffer_frame osc c p i hip

/-- A non-terminal step stores the emitted sample at its position. -/
theorem genStep_buffer_at (osc : F32 → F32 → ℤ) (p : ℕ) (c : GenCtx)
    (h : c.seq_state < 14) :
    (genStep osc p c).sample_data p = genEmit osc c := by
  unfold genStep
  rw [if_neg (by omega),
    show (seqAdvance (genDispatch osc c p)).sample_data =
      (genDispatch osc c p).sample_data from seqAdvance_buffer _]
  exact dispatch_buffer_at osc c p

/-- In a run writing consecutive positions `0, 1, …`, every position at or
beyond the step count is untouched. -/
theorem runGen_buffer_frame (osc : F32 → F32 → ℤ) (c : GenCtx) :
    ∀ k i, k ≤ i →
      (runGen osc (fun j => j) c k).sample_data i = c.sample_data i := by
  intro k
  induction k with
  | zero => exact fun i _ => rfl
  | succ l ih =>
    intro i hi
    show (genStep osc l (runGen osc (fun j => j) c l)).sample_data i = _
    rw [genStep_buffer_frame osc l _ i (by omega)]
    exact ih i (by omega)

/-- In a run writing consecutive positions whose first `k` steps are all
non-terminal, position `i < k` holds the sample emitted at step `i`. -/
theorem runGen_buffer_written (osc : F32 → F32 → ℤ) (c : GenCtx) :
    ∀ k, (∀ m, m < k → (runGen osc (fun j => j) c m).seq_state < 14) →
      ∀ i, i < k →
        (runGen osc (fun j => j) c k).sample_data i =
          genEmit osc (runGen osc (fun j => j) c i) := by
  intro k
  induction k with
  | zero => omega
  | succ l ih =>
    intro hlt i hi
    show (genStep osc l (runGen osc (fun j => j) c l)).sample_data i = _
    by_cases hil : i = l
    · rw [hil]
      exact genStep_buffer_at osc l _ (hlt l (by omega))
    · rw [genStep_buffer_frame osc l _ i hil]
      exact ih (fun m hm => hlt m (by omega)) i (by omega)

end Libsame

namespace Libsame

/-- The loop body of `libsame_samples_gen` equals `k` consecutive steps at
positions `start, start+1, …`, where `k ≤ fuel` counts the performed
iterations: all earlier states are non-terminal, and the loop runs its
full fuel unless it hits the terminal state at step `k`. -/
theorem genLoop_spec (osc : F32 → F32 → ℤ) :
    ∀ (fuel start : ℕ) (c : GenCtx), c.seq_state < 14 → 0 < fuel →
      ∃ k, 1 ≤ k ∧ k ≤ fuel ∧
        genLoop osc fuel start c = runGen osc (fun j => start + j) c k ∧
        (∀ m, m < k →
          (runGen osc (fun j => start + j) c m).seq_state < 14) ∧
        (k = fuel ∨
          (runGen osc (fun j => start + j) c k).seq_state = 14) := by
  intro fuel
  induction fuel with
  | zero => omega
  | succ f ih =>
    intro start c hst hf
    have hstep1 : runGen osc (fun j => start + j) c 1 =
        seqAdvance (genDispatch osc c start) := by
      show genStep osc (start + 0) c = _
      unfold genStep
      rw [if_neg (by omega)]
      rfl
    have hrun : ∀ m, runGen osc (fun j => start + j) c (1 + m) =
        runGen osc (fun j => start + 1 + j)
          (seqAdvance (genDispatch osc c start)) m := by
      intro m
      rw [runGen_comp osc _ c 1 m, hstep1]
      have hfe : (fun k => start + (1 + k)) = (fun j => start + 1 + j) := by
        funext t
        omega
      rw [hfe]
    simp only [genLoop]
    by_cases hterm : 14 ≤ (seqAdvance (genDispatch osc c start)).seq_state
    · rw [if_pos hterm]
      refine ⟨1, le_refl 1, by omega, hstep1.symm, ?_, ?_⟩
      · intro m hm
        have hm0 : m = 0 := by omega
        rw [hm0]
        exact hst
      · right
        have hle : (runGen osc (fun j => start + j) c 1).seq_state ≤
            c.seq_state + 1 :=
          (genStep_state_le osc ((fun j : ℕ => start + j) 0) c).2
        rw [hstep1] at hle
        rw [hstep1]
        omega
    · rw [if_neg hterm]
      by_cases hf0 : f = 0
      · subst hf0
        refine ⟨1, le_refl 1, le_refl 1, hstep1.symm, ?_, Or.inl rfl⟩
        intro m hm
        have hm0 : m = 0 := by omega
        rw [hm0]
        exact hst
      · obtain ⟨k1, hk11, hk1f, hloop, hlt, hend⟩ := ih (start + 1)
          (seqAdvance (genDispatch osc c start)) (by omega) (by omega)
        refine ⟨k1 + 1, by omega, by omega, ?_, ?_, ?_⟩
        · have e : k1 + 1 = 1 + k1 := by omega
          rw [e, hrun k1]
          exact hloop
        · intro m hm
          match m with
          | 0 => exact hst
          | m + 1 =>
            have e : m + 1 = 1 + m := by omega
            rw [e, hrun m]
            exact hlt m (by omega)
        · rcases hend with he | he
          · left
            omega
          · right
            have e : k1 + 1 = 1 + k1 := by omega
            rw [e, hrun k1]
            exact he

end Libsame

namespace Libsame

/-- C8.  From a non-terminal context, one `libsame_samples_gen` call
performs `k` per-sample steps at buffer positions `0, …, k−1` for some
`1 ≤ k ≤ 4096`: it fills the whole 4096-sample chunk (`k = 4096`) unless
the final phase completes first, in which case it returns immediately at
the sample where the terminal sentinel is reached; every written position
`i < k` holds the sample emitted at step `i`, and every position `≥ k` is
left with its previous contents. -/
theorem samples_gen_chunk (osc : F32 → F32 → ℤ) (c : GenCtx)
    (hc : c.seq_state < 14) :
    ∃ k, 1 ≤ k ∧ k ≤ 4096 ∧
      libsame_samples_gen osc c = runGen osc (fun j => j) c k ∧
      (∀ m, m < k → (runGen osc (fun j => j) c m).seq_state < 14) ∧
      (k = 4096 ∨ (runGen osc (fun j => j) c k).seq_state = 14) ∧
      (∀ i, i < k → (libsame_samples_gen osc c).sample_data i =
        genEmit osc (runGen osc (fun j => j) c i)) ∧
      (∀ i, k ≤ i → (libsame_samples_gen osc c).sample_data i =
        c.sample_data i) := by
  obtain ⟨k, hk1, hk2, hloop, hlt, hend⟩ :=
    genLoop_spec osc 4096 0 c hc (by omega)
  have hfe : (fun j : ℕ => 0 + j) = (fun j : ℕ => j) := by
    funext t
    omega
  rw [hfe] at hloop hlt hend
  have hsg : libsame_samples_gen osc c = runGen osc (fun j => j) c k := hloop
  refine ⟨k, hk1, hk2, hsg, hlt, hend, ?_, ?_⟩
  · intro i hi
    rw [hsg]
    exact runGen_buffer_written osc c k hlt i hi
  · intro i hik
    rw [hsg]
    exact runGen_buffer_frame osc c k i hik

/-- Witness for C8 at the Scenario-1-initialized context. -/
theorem samples_gen_chunk_witness :
    ((libsame_ctx_init zeroCtx scenario1 44100).seq_state < 14) ∧
      (∃ k, 1 ≤ k ∧ k ≤ 4096 ∧
        libsame_samples_gen zeroOsc (libsame_ctx_init zeroCtx scenario1 44100) =
          runGen zeroOsc (fun j => j)
            (libsame_ctx_init zeroCtx scenario1 44100) k ∧
        (∀ m, m < k → (runGen zeroOsc (fun j => j)
          (libsame_ctx_init zeroCtx scenario1 44100) m).seq_state < 14) ∧
        (k = 4096 ∨ (runGen zeroOsc (fun j => j)
          (libsame_ctx_init zeroCtx scenario1 44100) k).seq_state = 14) ∧
        (∀ i, i < k →
          (libsame_samples_gen zeroOsc
            (libsame_ctx_init zeroCtx scenario1 44100)).sample_data i =
          genEmit zeroOsc (runGen zeroOsc (fun j => j)
            (libsame_ctx_init zeroCtx scenario1 44100) i)) ∧
        (∀ i, k ≤ i →
          (libsame_samples_gen zeroOsc
            (libsame_ctx_init zeroCtx scenario1 44100)).sample_data i =
          (libsame_ctx_init zeroCtx scenario1 44100).sample_data i)) :=
  ⟨by decide,
    samples_gen_chunk zeroOsc (libsame_ctx_init zeroCtx scenario1 44100)
      (by decide)⟩

end Libsame
